import Mathlib

/-!
Shallow embedding of the HouseExpansion engine (TypeScript sources under
`lib/`), together with proofs settling the frozen specification claims.

Modelling conventions:
* JavaScript numbers are modelled as `ℤ`/`ℕ` where the code manipulates
  integers (seat counts, electoral votes) and as `ℚ` where it manipulates
  fractional values (shares, ballot weights, scores).  `Math.floor` on a
  quotient becomes `Int.floor` on `ℚ` (or `Int.fdiv` for integer halving).
* A JS `Record<string, number>` is modelled as a function `String → ℚ`
  (or `String → ℤ`) built by `Function.update` folds mirroring the
  `forEach` loops of the source, keyed by an explicit key list.
* `String.prototype.localeCompare` is modelled as character-code
  lexicographic comparison (`lexLtB` below), which agrees with it on the
  ASCII state codes and party ids the program uses.
* `while` loops become structural recursions, with an explicit fuel
  argument where the loop variable is not structurally decreasing; each
  such fuel is chosen so that the recursion provably never exhausts it.
-/

/-- Character-code comparison of strings, step 1: lexicographic `<` on the
underlying character lists (comparing Unicode code points). -/
def lexLtB : List Char → List Char → Bool
  | [], [] => false
  | [], _ :: _ => true
  | _ :: _, [] => false
  | x :: xs, y :: ys =>
    if x.toNat < y.toNat then true
    else if y.toNat < x.toNat then false
    else lexLtB xs ys

/-- `a` sorts strictly before `b` in character-code order.  Model of a
negative result of `a.localeCompare(b)` for the ASCII identifiers used by
the program. -/
def codeLt (a b : String) : Bool := lexLtB a.data b.data

/-- `a` sorts before `b` or equals it in character-code order. -/
def codeLe (a b : String) : Bool := !codeLt b a

/-- `lib/overlays.ts` / `lib/apportionment.ts` sibling: result record of
`hamiltonAllocation`, `{ partyA, partyB }`. -/
structure PartyAllocation where
  partyA : ℤ
  partyB : ℤ
deriving DecidableEq

/-- The seat-award loop of `hamiltonAllocation`: `while (allocated < totalSeats)`
assign one seat at a time, cycling through the remainder-sorted two-entry
list.  `n` is the number of iterations still to run (the loop runs exactly
`totalSeats - allocated` times since each pass increments `allocated`);
`pick = true` means party A. -/
def hamiltonLoop (rem : List (Bool × ℚ)) : ℕ → ℕ → ℤ × ℤ → ℤ × ℤ
  | 0, _, acc => acc
  | n + 1, idx, (a, b) =>
    let pick := rem.getD (idx % rem.length) (true, 0)
    hamiltonLoop rem n (idx + 1) (if pick.1 then (a + 1, b) else (a, b + 1))

/-- `hamiltonAllocation(totalSeats, partyAShare)` from `lib/overlays.ts`
(duplicated verbatim in the overlays sibling file): floor both raw shares,
then hand out the seats still missing one at a time in decreasing order of
fractional remainder, cycling.  The two-element `remainders` array sorted
by `(a, b) => b.value - a.value` (a stable sort) is `[B, A]` exactly when
B's remainder is strictly larger, else `[A, B]`. -/
def hamiltonAllocation (totalSeats : ℤ) (partyAShare : ℚ) : PartyAllocation :=
  let rawA : ℚ := totalSeats * partyAShare
  let rawB : ℚ := totalSeats * (1 - partyAShare)
  let baseA : ℤ := ⌊rawA⌋
  let baseB : ℤ := ⌊rawB⌋
  let remainders : List (Bool × ℚ) :=
    if rawB - baseB > rawA - baseA then [(false, rawB - baseB), (true, rawA - baseA)]
    else [(true, rawA - baseA), (false, rawB - baseB)]
  let out := hamiltonLoop remainders (totalSeats - (baseA + baseB)).toNat 0 (baseA, baseB)
  ⟨out.1, out.2⟩

/-- The two parties of `lib/elections.ts` (`type Party = "D" | "R"`). -/
inductive EcParty where
  | D : EcParty
  | R : EcParty
deriving DecidableEq

/-- Split-state configuration of `lib/elections.ts`:
`{ districtDemWins, districtCount }`. -/
structure SplitConfig where
  districtDemWins : ℤ
  districtCount : ℤ
deriving DecidableEq

/-- One entry of the `ELECTIONS` table: the set of states won outright by
the Democratic candidate plus the optional ME/NE split configurations. -/
structure ElectionConfig where
  demWinners : List String
  meSplit : Option SplitConfig
  neSplit : Option SplitConfig

/-- `ELECTIONS[2016]`. -/
def elections2016 : ElectionConfig where
  demWinners := ["CA", "CO", "CT", "DC", "DE", "HI", "IL", "MA", "MD", "ME",
    "MN", "NH", "NJ", "NM", "NV", "NY", "OR", "RI", "VA", "VT", "WA"]
  meSplit := some ⟨1, 2⟩
  neSplit := some ⟨0, 3⟩

/-- `ELECTIONS[2020]`. -/
def elections2020 : ElectionConfig where
  demWinners := ["AZ", "CA", "CO", "CT", "DC", "DE", "GA", "HI", "IL", "MA",
    "MD", "ME", "MI", "MN", "NH", "NJ", "NM", "NV", "NY", "OR", "PA", "RI",
    "VA", "VT", "WA", "WI"]
  meSplit := some ⟨1, 2⟩
  neSplit := some ⟨1, 3⟩

/-- `ELECTIONS[2024]`. -/
def elections2024 : ElectionConfig where
  demWinners := ["CA", "CO", "CT", "DC", "DE", "HI", "IL", "MA", "MD", "ME",
    "MN", "NH", "NJ", "NM", "NY", "OR", "RI", "VA", "VT", "WA"]
  meSplit := some ⟨1, 2⟩
  neSplit := some ⟨1, 3⟩

/-- `allocateSplitDistrictVotes(districtVotes, districtDemWins, districtCount)`
from `lib/elections.ts`: degenerate guards, then a Hamilton two-party split
of the district electors at the recorded district win ratio (clamped to
[0,1]).  Returns `(dem, rep)`. -/
def allocateSplitDistrictVotes (districtVotes districtDemWins districtCount : ℤ) : ℤ × ℤ :=
  if districtVotes ≤ 0 then (0, 0)
  else if districtCount ≤ 0 then (0, districtVotes)
  else
    let demShare : ℚ := min 1 (max 0 ((districtDemWins : ℚ) / (districtCount : ℚ)))
    let allocation := hamiltonAllocation districtVotes demShare
    (allocation.partyA, allocation.partyB)

/-- The per-state branch of the `Object.entries(metricsByState).forEach`
loop in `computeHistoricalEcOutcomes`: electoral votes `(dem, rep)` awarded
for one state.  Ordinary states give everything to the recorded winner;
ME/NE give the first `min 2 ec` votes to the at-large winner and divide the
remaining `max 0 (ec - 2)` via `allocateSplitDistrictVotes`. -/
def stateAward (cfg : ElectionConfig) (abbr : String) (ec : ℤ) : ℤ × ℤ :=
  if abbr = "ME" ∨ abbr = "NE" then
    let split := if abbr = "ME" then cfg.meSplit else cfg.neSplit
    let districtVotes := max 0 (ec - 2)
    let atLargeToDem := cfg.demWinners.contains abbr
    let atLarge : ℤ × ℤ := if atLargeToDem then (min 2 ec, 0) else (0, min 2 ec)
    let rest : ℤ × ℤ :=
      match split with
      | some s => allocateSplitDistrictVotes districtVotes s.districtDemWins s.districtCount
      | none => if atLargeToDem then (districtVotes, 0) else (0, districtVotes)
    (atLarge.1 + rest.1, atLarge.2 + rest.2)
  else if cfg.demWinners.contains abbr then (ec, 0)
  else (0, ec)

/-- `ElectionOutcome` of `lib/elections.ts`. -/
structure ElectionOutcome where
  year : ℕ
  democrats : ℤ
  republicans : ℤ
  majority : ℤ
  winner : EcParty
deriving DecidableEq

/-- `computeHistoricalEcOutcomes(metricsByState)` from `lib/elections.ts`.
The input record is modelled as the list of its `(abbr, ecVotes)` entries
(only the `ecVotes` field of each `StateMetrics` is read).  `majority` is
`Math.floor(ecTotal / 2) + 1`, and the winner is `"D"` exactly when
`democrats >= majority`, else `"R"`. -/
def computeHistoricalEcOutcomes (metrics : List (String × ℤ)) : List ElectionOutcome :=
  let ecTotal := (metrics.map Prod.snd).sum
  let majority := Int.fdiv ecTotal 2 + 1
  [(2016, elections2016), (2020, elections2020), (2024, elections2024)].map
    (fun yc =>
      let tallies := metrics.foldl
        (fun (acc : ℤ × ℤ) p =>
          let a := stateAward yc.2 p.1 p.2
          (acc.1 + a.1, acc.2 + a.2))
        (0, 0)
      ⟨yc.1, tallies.1, tallies.2, majority,
        if majority ≤ tallies.1 then EcParty.D else EcParty.R⟩)

/-- `normalizeShares(input, partyIds)` from `lib/pr/districtPlan.ts`.
The input record is a partial map `String → Option ℚ` (`input[partyId] ?? 0`
reads a missing key as 0); the three `forEach` loops become `foldl`s of
`Function.update` over `partyIds`, preserving the source's sequential
update semantics. -/
def normalizeShares (input : String → Option ℚ) (partyIds : List String) : String → ℚ :=
  let next := partyIds.foldl
    (fun f p => Function.update f p (max 0 ((input p).getD 0))) (fun _ => 0)
  let total := partyIds.foldl (fun s p => s + next p) 0
  if total ≤ 0 then
    let even : ℚ := 1 / max 1 (partyIds.length : ℚ)
    partyIds.foldl (fun f p => Function.update f p even) next
  else
    partyIds.foldl (fun f p => Function.update f p (f p / total)) next

/-- `PRSettings` of `lib/pr/types.ts` (seat fields as naturals, fractional
fields as rationals). -/
structure PRSettings where
  districtSeatTarget : ℕ
  minDistrictSeats : ℕ
  maxDistrictSeats : ℕ
  useTopUp : Bool
  topUpSeatShare : ℚ
  stvBallotsPerSeat : ℚ
deriving DecidableEq

/-- `clampPRSettings` from `lib/pr/districtPlan.ts`. -/
def clampPRSettings (settings : PRSettings) : PRSettings :=
  let minDistrictSeats := max 1 (min 10 settings.minDistrictSeats)
  let maxDistrictSeats := max minDistrictSeats (min 12 settings.maxDistrictSeats)
  let districtSeatTarget := max minDistrictSeats (min maxDistrictSeats settings.districtSeatTarget)
  { settings with
    minDistrictSeats := minDistrictSeats
    maxDistrictSeats := maxDistrictSeats
    districtSeatTarget := districtSeatTarget
    topUpSeatShare := max 0 (min (3/10) settings.topUpSeatShare)
    stvBallotsPerSeat := max 100 ((round settings.stvBallotsPerSeat : ℤ) : ℚ) }

/-- `scorePlan(parts, target)`: `variance * 10 + Σ|part - target|`. -/
def scorePlan (parts : List ℕ) (target : ℕ) : ℚ :=
  let mean : ℚ := (parts.map (fun v => (v : ℚ))).sum / (parts.length : ℚ)
  let variance : ℚ :=
    (parts.map (fun v => ((v : ℚ) - mean) ^ 2)).sum / (parts.length : ℚ)
  let targetPenalty : ℚ := (parts.map (fun v => |(v : ℚ) - (target : ℚ)|)).sum
  variance * 10 + targetPenalty

/-- First repair loop of `buildBalancedParts`: walk the parts left to right
while `remainder > 0`, bumping any part still below `max` by one. -/
def partsGrow (mx : ℕ) : List ℕ → ℕ → List ℕ × ℕ
  | [], remainder => ([], remainder)
  | x :: xs, remainder =>
    if remainder = 0 then (x :: xs, remainder)
    else if x < mx then
      let out := partsGrow mx xs (remainder - 1)
      ((x + 1) :: out.1, out.2)
    else
      let out := partsGrow mx xs remainder
      (x :: out.1, out.2)

/-- Second repair loop of `buildBalancedParts` (iterating from the last
index down): the inner `while` lowers any part above `max` back to `max`,
returning the excess to the remainder.  Processing right-to-left is the
source order; the fold below visits the list tail first. -/
def partsShrink (mx : ℕ) : List ℕ → ℕ → List ℕ × ℕ
  | [], remainder => ([], remainder)
  | x :: xs, remainder =>
    let out := partsShrink mx xs remainder
    if x > mx then (mx :: out.1, out.2 + (x - mx)) else (x :: out.1, out.2)

/-- Third repair loop of `buildBalancedParts`: walk left to right, raising
any part below `min` as far as the remainder allows. -/
def partsRaise (mn : ℕ) : List ℕ → ℕ → List ℕ × ℕ
  | [], remainder => ([], remainder)
  | x :: xs, remainder =>
    let add := min (mn - x) remainder
    let out := partsRaise mn xs (remainder - add)
    ((x + add) :: out.1, out.2)

/-- `buildBalancedParts(total, count, min, max)` from
`lib/pr/districtPlan.ts`: even split plus repair loops; `null` when the
remainder cannot be cleared or a part escapes the bounds.  The final
`parts.sort((a, b) => b - a)` is a descending sort. -/
def buildBalancedParts (total count mn mx : ℕ) : Option (List ℕ) :=
  if count = 0 then none
  else if count * mn > total ∨ count * mx < total then none
  else
    let base := total / count
    let remainder := total - base * count
    let s1 := partsGrow mx (List.replicate count base) remainder
    let s2 := partsShrink mx s1.1 s1.2
    let s3 := partsRaise mn s2.1 s2.2
    if s3.2 ≠ 0 then none
    else if s3.1.any (fun v => v < mn ∨ v > mx) then none
    else some (s3.1.insertionSort (fun a b => b ≤ a))

/-- The candidate-count loop of `chooseDistrictSeatCounts`, folded over the
enumerated counts: keep the lowest-scoring feasible partition
(`score < bestScore` is a strict improvement; `none` plays the role of the
initial `Number.POSITIVE_INFINITY`). -/
def bestParts (total target mn mx : ℕ) (counts : List ℕ) : Option (ℚ × List ℕ) :=
  counts.foldl
    (fun best count =>
      match buildBalancedParts total count mn mx with
      | none => best
      | some parts =>
        let score := scorePlan parts target
        match best with
        | none => some (score, parts)
        | some b => if score < b.1 then some (score, parts) else some b)
    none

/-- `chooseDistrictSeatCounts(totalSeats, target, min, max)` from
`lib/pr/districtPlan.ts`.  `Math.ceil(totalSeats / max)` for naturals is
`(totalSeats + max - 1) / max`. -/
def chooseDistrictSeatCounts (totalSeats target mn mx : ℕ) : List ℕ :=
  if totalSeats ≤ mx ∧ totalSeats < mn then [totalSeats]
  else if totalSeats < mn then [totalSeats]
  else
    let minCount := (totalSeats + mx - 1) / mx
    let maxCount := max minCount (totalSeats / mn)
    match bestParts totalSeats target mn mx (List.range' minCount (maxCount + 1 - minCount)) with
    | some b => b.2
    | none => [totalSeats]

/-- `DistrictSpec` of `lib/pr/types.ts` (the optional per-district share
override is never set by `buildDistrictPlan`). -/
structure DistrictSpec where
  districtId : String
  seats : ℕ
  partyShares : Option (String → ℚ)

/-- `DistrictPlan` of `lib/pr/types.ts`. -/
structure DistrictPlan where
  stateCode : String
  districts : List DistrictSpec

/-- `buildDistrictPlan(stateCode, totalSeats, settings)` from
`lib/pr/districtPlan.ts`. -/
def buildDistrictPlan (stateCode : String) (totalSeats : ℕ) (settings : PRSettings) : DistrictPlan :=
  let safe := clampPRSettings settings
  let districtSeats := chooseDistrictSeatCounts totalSeats
    safe.districtSeatTarget safe.minDistrictSeats safe.maxDistrictSeats
  let districts := districtSeats.enum.map
    (fun p => DistrictSpec.mk (stateCode ++ "-" ++ toString (p.1 + 1)) p.2 none)
  ⟨stateCode, districts⟩

/-- `Candidate` of `lib/pr/ballotGenerator.ts`. -/
structure Candidate where
  id : String
  partyId : String
deriving DecidableEq

/-- `RankedBallot` of `lib/pr/ballotGenerator.ts`. -/
structure RankedBallot where
  ranking : List String
  weight : ℚ
deriving DecidableEq

/-- The `WeightedBallot` of `lib/pr/stv.ts`: a ranked ballot together with
the mutable pointer `index` into its ranking.  `runSTV` creates these as
copies (`{ ...ballot, index: 0 }`) of the caller's ballots; all counting
mutation happens on the copies. -/
structure WBallot where
  ranking : List String
  weight : ℚ
  index : ℕ
deriving DecidableEq

/-- `droopQuota(validVotes, seats)`: `Math.floor(validVotes / (seats+1)) + 1`. -/
def droopQuota (validVotes : ℚ) (seats : ℕ) : ℤ :=
  ⌊validVotes / ((seats : ℚ) + 1)⌋ + 1

/-- The scan inside `activeChoice`: walking a ranking suffix, return the
offset of the first active candidate and that candidate, or the suffix
length and `none` when every remaining candidate is inactive. -/
def seekActive (isAct : String → Bool) : List String → ℕ × Option String
  | [] => (0, none)
  | c :: rest =>
    if isAct c then (0, some c)
    else
      let out := seekActive isAct rest
      (out.1 + 1, out.2)

/-- `activeChoice(ballot, active)` from `lib/pr/stv.ts`, returning the
ballot with its `index` advanced past inactive candidates together with
the first active choice (if any).  When no active candidate remains the
index ends at the ranking length, exactly as the source's `while` loop. -/
def activeChoice (isAct : String → Bool) (b : WBallot) : WBallot × Option String :=
  let out := seekActive isAct (b.ranking.drop b.index)
  ({ b with index := b.index + out.1 }, out.2)

/-- The ballot loop of `tally`: advance every ballot's pointer and add its
weight to its current first active choice.  Totals start from the
all-zeros record the source initialises over the active set. -/
def tallyGo (isAct : String → Bool) (f : String → ℚ) :
    List WBallot → List WBallot × (String → ℚ)
  | [] => ([], f)
  | b :: bs =>
    let bc := activeChoice isAct b
    let f1 := match bc.2 with
      | some c => Function.update f c (f c + b.weight)
      | none => f
    let out := tallyGo isAct f1 bs
    (bc.1 :: out.1, out.2)

/-- `transferSurplus(winnerId, winnerTotal, quota, ballots, active)` from
`lib/pr/stv.ts`.  Note the source calls `activeChoice` on every ballot, so
even ballots not pointing at the winner keep their advanced index; ballots
on the winner are additionally scaled by `surplus / winnerTotal` and
stepped past the winner. -/
def transferSurplus (winnerId : String) (winnerTotal : ℚ) (quota : ℤ)
    (isAct : String → Bool) (ballots : List WBallot) : List WBallot :=
  let surplus := winnerTotal - (quota : ℚ)
  if surplus ≤ 0 ∨ winnerTotal ≤ 0 then ballots
  else
    let frac := surplus / winnerTotal
    ballots.map (fun b =>
      let bc := activeChoice isAct b
      match bc.2 with
      | some c =>
        if c = winnerId then
          { bc.1 with weight := bc.1.weight * frac, index := bc.1.index + 1 }
        else bc.1
      | none => bc.1)

/-- Global counting state of `runSTV`: the remaining active candidates (in
`Set` insertion order), the ordered elected list, and the ballots. -/
structure STVState where
  seats : ℕ
  quota : ℤ
  active : List String
  elected : List String
  ballots : List WBallot
deriving DecidableEq

/-- The `winners.forEach` block of `runSTV`: elect each quota-reaching
candidate in order (highest tally first, ties by ascending id), skipping
any candidate already removed or arriving after the seats are filled;
surpluses are transferred against the still-current active set. -/
def electGo (seats : ℕ) (quota : ℤ) :
    List (String × ℚ) → List String → List String → List WBallot →
    List String × List String × List WBallot
  | [], active, elected, ballots => (active, elected, ballots)
  | w :: rest, active, elected, ballots =>
    if w.1 ∈ active ∧ elected.length < seats then
      electGo seats quota rest (active.erase w.1) (elected ++ [w.1])
        (transferSurplus w.1 w.2 quota (fun c => active.contains c) ballots)
    else electGo seats quota rest active elected ballots

/-- Sort relation for the `winners` array of `runSTV`
(`b[1] - a[1] || a[0].localeCompare(b[0])`): descending tally, ascending id. -/
def winnerBefore (a b : String × ℚ) : Prop :=
  b.2 < a.2 ∨ (b.2 = a.2 ∧ codeLe a.1 b.1 = true)

instance : DecidableRel winnerBefore := fun a b => by
  unfold winnerBefore
  infer_instance

/-- Sort relation used by `lowestCandidate`: ascending tally, ties by
ascending id. -/
def lowestBefore (a b : String × ℚ) : Prop :=
  a.2 < b.2 ∨ (a.2 = b.2 ∧ codeLe a.1 b.1 = true)

instance : DecidableRel lowestBefore := fun a b => by
  unfold lowestBefore
  infer_instance

/-- One full iteration of the counting loop of `runSTV` in the case where
neither exit applies: tally, then either elect every candidate at or above
quota or eliminate the lowest-tally candidate.  The tally's pointer
advances persist in the ballots either way. -/
def stvStep (st : STVState) : STVState :=
  let isAct := fun c => st.active.contains c
  let t := tallyGo isAct (fun _ => 0) st.ballots
  let entries := st.active.map (fun c => (c, t.2 c))
  let winners := entries.filter (fun p => (st.quota : ℚ) ≤ p.2)
  if winners.length > 0 then
    let sorted := winners.insertionSort winnerBefore
    let out := electGo st.seats st.quota sorted st.active st.elected t.1
    { st with active := out.1, elected := out.2.1, ballots := out.2.2 }
  else
    let low := match entries.insertionSort lowestBefore with
      | [] => ""
      | p :: _ => p.1
    { st with active := st.active.erase low, ballots := t.1 }

/-- The `while (elected.length < seats && active.size > 0)` loop of
`runSTV`, with explicit fuel.  When the remaining active candidates no
longer exceed the open seats they are all elected in ascending id order
and the loop breaks (leaving `active` untouched, as the source `break`
does). -/
def stvLoop : ℕ → STVState → STVState
  | 0, st => st
  | fuel + 1, st =>
    if st.elected.length < st.seats ∧ 0 < st.active.length then
      if st.active.length ≤ st.seats - st.elected.length then
        { st with elected := st.elected ++
            st.active.insertionSort (fun a b => codeLe a b = true) }
      else stvLoop fuel (stvStep st)
    else st

/-- The initial state built at the top of `runSTV`: Droop quota from the
total ballot weight, actives from the candidate ids in first-insertion
order (`new Set`), and weighted copies of the ballots with `index = 0`. -/
def stvInit (seats : ℕ) (candidates : List Candidate) (ballots : List RankedBallot) : STVState :=
  let validVotes := (ballots.map RankedBallot.weight).sum
  let active := candidates.foldl
    (fun l c => if c.id ∈ l then l else l ++ [c.id]) []
  ⟨seats, droopQuota validVotes seats, active, [],
    ballots.map (fun b => ⟨b.ranking, b.weight, 0⟩)⟩

/-- Result record of `runSTV`. -/
structure STVResult where
  quota : ℤ
  electedCandidateIds : List String
  seatsByParty : String → ℤ

/-- `runSTV(args)` from `lib/pr/stv.ts`.  The loop fuel is the number of
active candidates, which `stvLoop_fuel_irrelevant` below shows suffices:
every iteration that loops again removes at least one active candidate.
The second component is the caller's ballot list after the run: the source
counts on shallow copies (`{ ...ballot, index: 0 }`) and mutates only the
`weight`/`index` fields of those copies (rankings are only read), so the
input ballots come back unchanged. -/
def runSTV (seats : ℕ) (candidates : List Candidate) (ballots : List RankedBallot) :
    STVResult × List RankedBallot :=
  let st0 := stvInit seats candidates ballots
  let fin := stvLoop st0.active.length st0
  let electedIds := fin.elected.take seats
  let seatsByParty := candidates.foldl
    (fun f c =>
      if electedIds.contains c.id then Function.update f c.partyId (f c.partyId + 1) else f)
    (fun _ => (0 : ℤ))
  (⟨st0.quota, electedIds, seatsByParty⟩, ballots)

/-- `PriorityEntry` of `lib/apportionment.ts`. -/
structure PriorityEntry where
  state : String
  priority : ℚ
deriving DecidableEq

/-- Placeholder entry used by out-of-range list reads (never observed by
the in-range accesses the algorithm performs). -/
def dEntry : PriorityEntry := ⟨"", 0⟩

/-- The sign-only content of `localeCompare` as a number: negative, zero
or positive according to the character-code comparison. -/
def strCmp (a b : String) : ℚ :=
  if codeLt a b then -1 else if codeLt b a then 1 else 0

/-- `compareEntries(a, b)` from `lib/apportionment.ts`: priority
difference, with exact ties broken by `b.state.localeCompare(a.state)`.
Only the sign of the result is ever used (heap comparisons against 0). -/
def compareEntries (a b : PriorityEntry) : ℚ :=
  if a.priority = b.priority then strCmp b.state a.state
  else a.priority - b.priority

/-- `a` is at most `b` in the total order the heap comparator induces:
smaller priority first, and among equal priorities the *larger* state code
first (so the maximum of a tied group carries the alphabetically smallest
code).  `compareEntries_nonpos` below proves this is exactly
`compareEntries a b ≤ 0`. -/
def entryLe (a b : PriorityEntry) : Prop :=
  a.priority < b.priority ∨ (a.priority = b.priority ∧ codeLe b.state a.state = true)

instance : DecidableRel entryLe := fun a b => by
  unfold entryLe
  infer_instance

namespace MaxHeap

/-- Swap the entries at positions `i` and `j` (the JS destructuring swap
`[data[i], data[j]] = [data[j], data[i]]`). -/
def hswap (l : List PriorityEntry) (i j : ℕ) : List PriorityEntry :=
  (l.set i (l.getD j dEntry)).set j (l.getD i dEntry)

/-- `bubbleUp` of the `MaxHeap` class, with fuel: while the current index
has a parent comparing strictly above it, swap and continue from the
parent.  The index strictly decreases, so fuel `i` never runs out. -/
def bubbleUpGo : ℕ → List PriorityEntry → ℕ → List PriorityEntry
  | 0, l, _ => l
  | fuel + 1, l, i =>
    if i = 0 then l
    else
      let parent := (i - 1) / 2
      if compareEntries (l.getD i dEntry) (l.getD parent dEntry) ≤ 0 then l
      else bubbleUpGo fuel (hswap l i parent) parent

/-- `bubbleUp(index)` of `lib/apportionment.ts`. -/
def bubbleUp (l : List PriorityEntry) (i : ℕ) : List PriorityEntry := bubbleUpGo i l i

/-- `bubbleDown` of the `MaxHeap` class, with fuel: find the largest of
the current entry and its children, swap downward while a child is
strictly larger.  The index strictly increases and stays below the length,
so fuel `l.length` never runs out. -/
def bubbleDownGo : ℕ → List PriorityEntry → ℕ → List PriorityEntry
  | 0, l, _ => l
  | fuel + 1, l, i =>
    let len := l.length
    let left := 2 * i + 1
    let right := 2 * i + 2
    let largest₁ :=
      if left < len ∧ 0 < compareEntries (l.getD left dEntry) (l.getD i dEntry) then left else i
    let largest₂ :=
      if right < len ∧ 0 < compareEntries (l.getD right dEntry) (l.getD largest₁ dEntry) then right
      else largest₁
    if largest₂ = i then l else bubbleDownGo fuel (hswap l i largest₂) largest₂

/-- `bubbleDown(index)` of `lib/apportionment.ts`. -/
def bubbleDown (l : List PriorityEntry) (i : ℕ) : List PriorityEntry := bubbleDownGo l.length l i

/-- `push(entry)`: append, then bubble the new last index up. -/
def push (l : List PriorityEntry) (e : PriorityEntry) : List PriorityEntry :=
  bubbleUp (l ++ [e]) l.length

/-- `pop()`: return the root; move the last entry to the root and bubble
it down (when anything remains). -/
def pop : List PriorityEntry → Option (PriorityEntry × List PriorityEntry)
  | [] => none
  | x :: xs =>
    let last := (x :: xs).getLastD dEntry
    let rest := (x :: xs).dropLast
    if rest.isEmpty then some (x, rest)
    else some (x, bubbleDown (rest.set 0 last) 0)

/-- The binary-heap shape invariant: every non-root entry compares at most
its parent.  Maintained by `push` and `pop` (`push_isHeap`, `pop_isHeap`)
and holding for every heap `apportion` builds. -/
def IsHeap (l : List PriorityEntry) : Prop :=
  ∀ i, i < l.length → 0 < i → entryLe (l.getD i dEntry) (l.getD ((i - 1) / 2) dEntry)

instance (l : List PriorityEntry) : Decidable (IsHeap l) := by
  unfold IsHeap
  exact Nat.decidableBallLT _ _

end MaxHeap

/-- Order-faithful stand-in for `computePriority(population, seats)`.
The source computes `population / Math.sqrt(seats * (seats + 1))`, which
is irrational; squaring (for the non-negative populations apportionment
runs on) preserves every comparison and every exact tie, and the
apportionment theorems below quantify over an arbitrary priority function
anyway — this concrete instance is used by the evaluated examples. -/
def computePrioritySq (population : ℚ) (seats : ℤ) : ℚ :=
  population ^ 2 / ((seats : ℚ) * ((seats : ℚ) + 1))

/-- Error message of the `apportion` guard. -/
def apportionErrMsg : String := "Total seats must be at least the number of states."

/-- The seat-award loop of `apportion`: `remaining` times pop the
highest-priority state, give it one more seat, recompute its priority at
the new seat count and push it back; a failed pop breaks the loop. -/
def apportionGo (prio : ℚ → ℤ → ℚ) (popFn : String → ℚ) :
    ℕ → List PriorityEntry → (String → ℤ) → List PriorityEntry × (String → ℤ)
  | 0, h, seats => (h, seats)
  | n + 1, h, seats =>
    match MaxHeap.pop h with
    | none => (h, seats)
    | some tr =>
      let seats1 := Function.update seats tr.1.state (seats tr.1.state + 1)
      apportionGo prio popFn n
        (MaxHeap.push tr.2 ⟨tr.1.state, prio (popFn tr.1.state) (seats1 tr.1.state)⟩) seats1

/-- `apportion(populationsByState, totalSeats)` from `lib/apportionment.ts`,
parametrised by the priority function (see `computePrioritySq`).  The
input record is modelled as its `(state, population)` entry list; every
state starts at one seat, and the loop distributes the remaining
`totalSeats - stateCount` seats.  Throwing becomes `Except.error`. -/
def apportion (prio : ℚ → ℤ → ℚ) (pops : List (String × ℚ)) (totalSeats : ℤ) :
    Except String (String → ℤ) :=
  let keys := pops.map Prod.fst
  let popFn : String → ℚ := fun s => ((pops.lookup s).getD 0)
  let seats0 : String → ℤ := keys.foldl (fun f k => Function.update f k 1) (fun _ => 0)
  let remaining := totalSeats - (keys.length : ℤ)
  if remaining < 0 then Except.error apportionErrMsg
  else
    let heap0 := keys.foldl
      (fun h k => MaxHeap.push h ⟨k, prio (popFn k) (seats0 k)⟩) []
    Except.ok (apportionGo prio popFn remaining.toNat heap0 seats0).2

/-- A concrete first-round state used by the evaluated examples: two
seats, candidates `a`, `b`, `c`, and four unit ballots, two ranking `a`
first and two ranking `b` first.  The Droop quota is
`floor(4 / 3) + 1 = 2`, so `a` and `b` both reach quota in round one. -/
def stvExampleState : STVState :=
  stvInit 2 [⟨"a", "pa"⟩, ⟨"b", "pb"⟩, ⟨"c", "pc"⟩]
    [⟨["a", "b", "c"], 1⟩, ⟨["a", "b", "c"], 1⟩, ⟨["b", "a", "c"], 1⟩, ⟨["b", "a", "c"], 1⟩]

/-- Each iteration of the Hamilton award loop hands out exactly one seat. -/
theorem hamiltonLoop_sum (rem : List (Bool × ℚ)) :
    ∀ n idx a b, (hamiltonLoop rem n idx (a, b)).1 + (hamiltonLoop rem n idx (a, b)).2
      = a + b + n := by
  intro n
  induction n with
  | zero => intro idx a b; simp [hamiltonLoop]
  | succ n ih =>
    intro idx a b
    simp only [hamiltonLoop]
    by_cases h : (rem.getD (idx % rem.length) (true, 0)).1
    · simp only [h, if_true, ih]
      push_cast
      ring
    · simp only [h, if_false, ih]
      push_cast
      ring

/-- `hamiltonAllocation` always hands out exactly `totalSeats` seats: the
floored bases sum to at most the (integral) total, and the award loop runs
once per missing seat. -/
theorem hamiltonAllocation_total (t : ℤ) (s : ℚ) :
    (hamiltonAllocation t s).partyA + (hamiltonAllocation t s).partyB = t := by
  unfold hamiltonAllocation
  have hfloor : ⌊(t : ℚ) * s⌋ + ⌊(t : ℚ) * (1 - s)⌋ ≤ t := by
    have h1 : (⌊(t : ℚ) * s⌋ : ℚ) ≤ (t : ℚ) * s := Int.floor_le _
    have h2 : (⌊(t : ℚ) * (1 - s)⌋ : ℚ) ≤ (t : ℚ) * (1 - s) := Int.floor_le _
    have h3 : ((⌊(t : ℚ) * s⌋ + ⌊(t : ℚ) * (1 - s)⌋ : ℤ) : ℚ) ≤ (t : ℚ) := by
      push_cast
      nlinarith
    exact_mod_cast h3
  set baseA := ⌊(t : ℚ) * s⌋ with hA
  set baseB := ⌊(t : ℚ) * (1 - s)⌋ with hB
  have hcast : ((t - (baseA + baseB)).toNat : ℤ) = t - (baseA + baseB) :=
    Int.toNat_of_nonneg (by omega)
  by_cases hrem : (t : ℚ) * (1 - s) - baseB > (t : ℚ) * s - baseA
  · simp only [hrem, if_true, hamiltonLoop_sum]
    omega
  · simp only [hrem, if_false, hamiltonLoop_sum]
    omega

/-- C4: for every integer `totalSeats ≥ 0` and share in `[0,1]`,
`hamiltonAllocation(totalSeats, share)` returns `partyA` and `partyB` with
`partyA + partyB = totalSeats`. -/
theorem hamilton_two_party_sum (totalSeats : ℤ) (share : ℚ)
    (htotal : 0 ≤ totalSeats) (hlo : 0 ≤ share) (hhi : share ≤ 1) :
    (hamiltonAllocation totalSeats share).partyA
      + (hamiltonAllocation totalSeats share).partyB = totalSeats :=
  hamiltonAllocation_total totalSeats share

/-- Witness for C4 at `totalSeats = 3`, `share = 1/3`. -/
theorem hamilton_two_party_sum_witness :
    (0 : ℤ) ≤ 3 ∧ (0 : ℚ) ≤ 1/3 ∧ (1/3 : ℚ) ≤ 1 ∧
      (hamiltonAllocation 3 (1/3)).partyA + (hamiltonAllocation 3 (1/3)).partyB = 3 :=
  ⟨by decide, by decide!, by decide!,
    hamilton_two_party_sum 3 (1/3) (by decide) (by decide!) (by decide!)⟩

/-- C7: `apportion` fails (with the invalid-configuration error) exactly
when the requested total is below the state count, and returns normally on
every input whose total is at least the state count. -/
theorem apportion_error_characterisation (prio : ℚ → ℤ → ℚ)
    (pops : List (String × ℚ)) (totalSeats : ℤ) :
    (apportion prio pops totalSeats = Except.error apportionErrMsg
        ↔ totalSeats < (pops.length : ℤ)) ∧
      ((pops.length : ℤ) ≤ totalSeats →
        ∃ f, apportion prio pops totalSeats = Except.ok f) := by
  unfold apportion
  simp only [List.length_map]
  by_cases h : totalSeats - (pops.length : ℤ) < 0
  · simp only [h, if_true]
    constructor
    · constructor
      · intro _; omega
      · intro _; trivial
    · intro hle; omega
  · simp only [h, if_false]
    constructor
    · constructor
      · intro hcontra; exact absurd hcontra (by simp)
      · intro hlt; omega
    · intro _
      exact ⟨_, rfl⟩

/-- Witness for C7 at a one-state input, exercising both directions. -/
theorem apportion_error_characterisation_witness :
    (apportion computePrioritySq [(("AA" : String), (1 : ℚ))] 0 = Except.error apportionErrMsg
        ↔ (0 : ℤ) < 1) ∧
      ((1 : ℤ) ≤ 1 → ∃ f, apportion computePrioritySq [(("AA" : String), (1 : ℚ))] 1
        = Except.ok f) :=
  ⟨by
    have h := (apportion_error_characterisation computePrioritySq
      [(("AA" : String), (1 : ℚ))] 0).1
    simpa using h,
   (apportion_error_characterisation computePrioritySq [(("AA" : String), (1 : ℚ))] 1).2⟩

/-- `allocateSplitDistrictVotes` conserves the district electors it is
given (for a non-negative count): every branch, including the Hamilton
split, hands out exactly `districtVotes` votes. -/
theorem allocateSplitDistrictVotes_total (dv dw dc : ℤ) (hdv : 0 ≤ dv) :
    (allocateSplitDistrictVotes dv dw dc).1 + (allocateSplitDistrictVotes dv dw dc).2 = dv := by
  unfold allocateSplitDistrictVotes
  split_ifs with h1 h2
  · omega
  · simp
  · exact hamiltonAllocation_total dv _

/-- One state's award conserves its electoral votes (for non-negative
`ecVotes`): ordinary states give everything to the recorded winner, and a
split state's at-large and district awards rebuild `ecVotes` exactly. -/
theorem stateAward_total (cfg : ElectionConfig) (abbr : String) (ec : ℤ) (hec : 0 ≤ ec) :
    (stateAward cfg abbr ec).1 + (stateAward cfg abbr ec).2 = ec := by
  unfold stateAward
  by_cases h1 : abbr = "ME" ∨ abbr = "NE"
  · simp only [h1, if_true]
    rcases hsplit : (if abbr = "ME" then cfg.meSplit else cfg.neSplit) with _ | s
    · simp only [hsplit]
      cases hd : cfg.demWinners.contains abbr <;> simp [hd] <;> omega
    · simp only [hsplit]
      have htot := allocateSplitDistrictVotes_total (max 0 (ec - 2)) s.districtDemWins
        s.districtCount (le_max_left 0 _)
      cases hd : cfg.demWinners.contains abbr <;> simp [hd] <;> omega
  · simp only [h1, if_false]
    cases hd : cfg.demWinners.contains abbr <;> simp [hd]

/-- The per-year tally fold conserves the electoral-vote sum. -/
theorem ecTallyFold_total (cfg : ElectionConfig) :
    ∀ (l : List (String × ℤ)) (acc : ℤ × ℤ), (∀ p ∈ l, 0 ≤ p.2) →
      (l.foldl (fun (acc : ℤ × ℤ) p =>
          let a := stateAward cfg p.1 p.2
          (acc.1 + a.1, acc.2 + a.2)) acc).1 +
        (l.foldl (fun (acc : ℤ × ℤ) p =>
          let a := stateAward cfg p.1 p.2
          (acc.1 + a.1, acc.2 + a.2)) acc).2
      = acc.1 + acc.2 + (l.map Prod.snd).sum := by
  intro l
  induction l with
  | nil => intro acc _; simp
  | cons p rest ih =>
    intro acc hpos
    have hp := stateAward_total cfg p.1 p.2 (hpos p (List.mem_cons_self p rest))
    have := ih (acc.1 + (stateAward cfg p.1 p.2).1, acc.2 + (stateAward cfg p.1 p.2).2)
      (fun q hq => hpos q (List.mem_cons_of_mem p hq))
    simp only [List.foldl_cons, List.map_cons, List.sum_cons]
    simp only [this]
    omega

/-- C10 (implicit): for every metrics map whose `ecVotes` are non-negative
integers, each outcome of `computeHistoricalEcOutcomes` satisfies
`democrats + republicans = Σ ecVotes` — electoral votes are conserved
across ordinary awards, at-large awards and the Hamilton district split. -/
theorem ec_votes_conserved (metrics : List (String × ℤ))
    (hpos : ∀ p ∈ metrics, 0 ≤ p.2) :
    ∀ o ∈ computeHistoricalEcOutcomes metrics,
      o.democrats + o.republicans = (metrics.map Prod.snd).sum := by
  intro o ho
  unfold computeHistoricalEcOutcomes at ho
  simp only [List.mem_map] at ho
  obtain ⟨yc, _, rfl⟩ := ho
  simpa using ecTallyFold_total yc.2 metrics (0, 0) hpos

/-- Witness for C10: a single split state `ME` with 4 electoral votes;
2 at-large votes go to the Democrats and the remaining 2 are Hamilton-split
at ratio 1/2, conserving all 4 votes. -/
theorem ec_votes_conserved_witness :
    (∀ p ∈ [(("ME" : String), (4 : ℤ))], 0 ≤ p.2) ∧
      ((computeHistoricalEcOutcomes [(("ME" : String), (4 : ℤ))]).getD 0
          ⟨0, 0, 0, 0, EcParty.R⟩).democrats +
        ((computeHistoricalEcOutcomes [(("ME" : String), (4 : ℤ))]).getD 0
          ⟨0, 0, 0, 0, EcParty.R⟩).republicans = 4 := by
  constructor
  · decide
  · have h := ec_votes_conserved [(("ME" : String), (4 : ℤ))] (by decide)
      ((computeHistoricalEcOutcomes [(("ME" : String), (4 : ℤ))]).getD 0
        ⟨0, 0, 0, 0, EcParty.R⟩)
      (by decide!)
    simpa using h

/-- C2 (amended): in every outcome of `computeHistoricalEcOutcomes` the
declared winner is `"D"` exactly when the Democratic total meets the
majority threshold `⌊totalEC/2⌋ + 1`; when the winner is `"R"` the
Democratic total is below the threshold, but the Republican total need not
itself reach it. -/
theorem ec_winner_characterisation (metrics : List (String × ℤ)) :
    ∀ o ∈ computeHistoricalEcOutcomes metrics,
      (o.winner = EcParty.D ↔ o.majority ≤ o.democrats) := by
  intro o ho
  unfold computeHistoricalEcOutcomes at ho
  simp only [List.mem_map] at ho
  obtain ⟨yc, _, rfl⟩ := ho
  simp only []
  split_ifs with h
  · simpa using h
  · constructor
    · intro hcontra; exact absurd hcontra (by simp)
    · intro hle; exact absurd hle h

/-- Witness for C2's amended statement on a concrete input (state `CA`
with 2 electoral votes: the Democrats reach the majority of 2 in every
listed year). -/
theorem ec_winner_characterisation_witness :
    (((computeHistoricalEcOutcomes [(("CA" : String), (2 : ℤ))]).getD 0
        ⟨0, 0, 0, 0, EcParty.R⟩).winner = EcParty.D ↔
      ((computeHistoricalEcOutcomes [(("CA" : String), (2 : ℤ))]).getD 0
        ⟨0, 0, 0, 0, EcParty.R⟩).majority ≤
      ((computeHistoricalEcOutcomes [(("CA" : String), (2 : ℤ))]).getD 0
        ⟨0, 0, 0, 0, EcParty.R⟩).democrats) :=
  ec_winner_characterisation [(("CA" : String), (2 : ℤ))] _ (by decide!)

/-- Counterexample to C2 as stated: with states `CA` and `TX` holding one
electoral vote each, the 2016 replay gives each party 1 vote against a
majority threshold of 2; the code still declares `"R"` the winner even
though the Republican total is below the threshold. -/
theorem ec_winner_below_majority_cex :
    ((computeHistoricalEcOutcomes [(("CA" : String), (1 : ℤ)), (("TX" : String), (1 : ℤ))]).getD 0
        ⟨0, 0, 0, 0, EcParty.D⟩).winner = EcParty.R ∧
      ((computeHistoricalEcOutcomes [(("CA" : String), (1 : ℤ)), (("TX" : String), (1 : ℤ))]).getD 0
        ⟨0, 0, 0, 0, EcParty.D⟩).republicans <
      ((computeHistoricalEcOutcomes [(("CA" : String), (1 : ℤ)), (("TX" : String), (1 : ℤ))]).getD 0
        ⟨0, 0, 0, 0, EcParty.D⟩).majority := by
  decide

/-- A chain of record writes leaves keys outside the written list alone. -/
theorem foldl_update_notMem {α : Type} (h : (String → α) → String → α)
    (l : List String) (f0 : String → α) (p : String) (hp : p ∉ l) :
    (l.foldl (fun f q => Function.update f q (h f q)) f0) p = f0 p := by
  induction l generalizing f0 with
  | nil => rfl
  | cons q rest ih =>
    have hq : p ≠ q := fun hcontra => hp (hcontra ▸ List.mem_cons_self q rest)
    have hrest : p ∉ rest := fun hcontra => hp (List.mem_cons_of_mem q hcontra)
    simp only [List.foldl_cons]
    rw [ih _ hrest, Function.update_noteq hq]

/-- A chain of record writes whose value depends only on the key realises
that value at every written key (the last write wins). -/
theorem foldl_update_value {α : Type} (g : String → α)
    (l : List String) (f0 : String → α) (p : String) (hp : p ∈ l) :
    (l.foldl (fun f q => Function.update f q (g q)) f0) p = g p := by
  induction l generalizing f0 with
  | nil => cases hp
  | cons q rest ih =>
    simp only [List.foldl_cons]
    by_cases hrest : p ∈ rest
    · exact ih _ hrest
    · have hq : p = q := by
        rcases List.mem_cons.mp hp with h | h
        · exact h
        · exact absurd h hrest
      subst hq
      rw [foldl_update_notMem _ _ _ _ hrest, Function.update_same]

/-- Over a duplicate-free key list, the sequential division pass of
`normalizeShares` divides each written key exactly once. -/
theorem foldl_update_div (t : ℚ) (l : List String) (hnd : l.Nodup)
    (f0 : String → ℚ) (p : String) (hp : p ∈ l) :
    (l.foldl (fun f q => Function.update f q (f q / t)) f0) p = f0 p / t := by
  induction l generalizing f0 with
  | nil => cases hp
  | cons q rest ih =>
    simp only [List.foldl_cons]
    rcases List.mem_cons.mp hp with h | h
    · subst h
      have hrest : p ∉ rest := (List.nodup_cons.mp hnd).1
      rw [foldl_update_notMem _ _ _ _ hrest, Function.update_same]
    · rw [ih (List.nodup_cons.mp hnd).2 _ h, Function.update_noteq]
      intro hcontra
      exact (List.nodup_cons.mp hnd).1 (hcontra ▸ h)

/-- The running-total fold of `normalizeShares` is the list sum. -/
theorem foldl_add_eq_sum (g : String → ℚ) (l : List String) :
    ∀ a : ℚ, l.foldl (fun s p => s + g p) a = a + (l.map g).sum := by
  induction l with
  | nil => intro a; simp
  | cons q rest ih =>
    intro a
    simp only [List.foldl_cons, List.map_cons, List.sum_cons, ih]
    ring

/-- C8 (amended): for every input share mapping and every non-empty,
duplicate-free `partyIds` list, `normalizeShares` returns a mapping whose
entries all lie in `[0,1]` and sum to 1; when every input entry is `≤ 0`
or missing, every output entry is the even split `1 / |partyIds|`. -/
theorem normalizeShares_invariant (input : String → Option ℚ) (partyIds : List String)
    (hne : partyIds ≠ []) (hnd : partyIds.Nodup) :
    (∀ p ∈ partyIds, 0 ≤ normalizeShares input partyIds p ∧
        normalizeShares input partyIds p ≤ 1) ∧
      (partyIds.map (normalizeShares input partyIds)).sum = 1 ∧
      ((∀ p ∈ partyIds, (input p).getD 0 ≤ 0) →
        ∀ p ∈ partyIds, normalizeShares input partyIds p = 1 / (partyIds.length : ℚ)) := by
  have hlen : 1 ≤ (partyIds.length : ℚ) := by
    have : 1 ≤ partyIds.length := List.length_pos.mpr hne
    exact_mod_cast this
  unfold normalizeShares
  set m : String → ℚ := fun q => max 0 ((input q).getD 0) with hm
  have hnext : ∀ p ∈ partyIds,
      (partyIds.foldl (fun f p => Function.update f p (max 0 ((input p).getD 0))) (fun _ => 0)) p
        = m p := by
    intro p hp
    exact foldl_update_value m partyIds _ p hp
  set next := partyIds.foldl
    (fun f p => Function.update f p (max 0 ((input p).getD 0))) (fun _ => 0) with hnextdef
  have htotal : partyIds.foldl (fun s p => s + next p) 0 = (partyIds.map m).sum := by
    rw [foldl_add_eq_sum next partyIds 0, zero_add]
    congr 1
    exact List.map_congr_left hnext
  have hmnonneg : ∀ p ∈ partyIds, 0 ≤ m p := fun p _ => le_max_left 0 _
  have hmapnonneg : ∀ x ∈ partyIds.map m, (0:ℚ) ≤ x := by
    intro x hx
    rcases List.mem_map.mp hx with ⟨p, hp, rfl⟩
    exact hmnonneg p hp
  simp only [htotal]
  by_cases hcase : (partyIds.map m).sum ≤ 0
  · simp only [if_pos hcase]
    have heval : ∀ p ∈ partyIds,
        (partyIds.foldl (fun f p => Function.update f p (1 / max 1 (partyIds.length : ℚ))) next) p
          = 1 / (partyIds.length : ℚ) := by
      intro p hp
      rw [foldl_update_value (fun _ => 1 / max 1 (partyIds.length : ℚ)) partyIds _ p hp]
      rw [max_eq_right hlen]
    refine ⟨?_, ?_, ?_⟩
    · intro p hp
      rw [heval p hp]
      constructor
      · positivity
      · rw [div_le_one (by linarith)]
        linarith
    · rw [List.map_congr_left heval]
      simp only [List.map_const']
      rw [List.sum_replicate, nsmul_eq_mul]
      field_simp
    · intro _ p hp
      exact heval p hp
  · simp only [if_neg hcase]
    push_neg at hcase
    have hsumle : ∀ p ∈ partyIds, m p ≤ (partyIds.map m).sum := by
      intro p hp
      exact List.single_le_sum hmapnonneg (m p) (List.mem_map_of_mem m hp)
    have heval : ∀ p ∈ partyIds,
        (partyIds.foldl (fun f q => Function.update f q (f q / (partyIds.map m).sum)) next) p
          = m p / (partyIds.map m).sum := by
      intro p hp
      rw [foldl_update_div _ partyIds hnd next p hp, hnext p hp]
    refine ⟨?_, ?_, ?_⟩
    · intro p hp
      rw [heval p hp]
      constructor
      · positivity
      · rw [div_le_one hcase]
        exact hsumle p hp
    · rw [List.map_congr_left heval]
      simp only [div_eq_mul_inv]
      rw [List.sum_map_mul_right]
      exact mul_inv_cancel₀ (ne_of_gt hcase)
    · intro hall p hp
      exfalso
      have hzero : ∀ p ∈ partyIds, m p = 0 := by
        intro q hq
        have := hall q hq
        simp only [hm]
        exact max_eq_left (hall q hq)
      have : (partyIds.map m).sum = 0 := by
        rw [List.map_congr_left hzero]
        simp
      linarith

/-- Witness for C8's amended statement: two distinct parties with no input
shares fall back to the even split `1/2` each, summing to 1. -/
theorem normalizeShares_invariant_witness :
    ((["a", "b"] : List String) ≠ [] ∧ (["a", "b"] : List String).Nodup) ∧
      (∀ p ∈ (["a", "b"] : List String), 0 ≤ normalizeShares (fun _ => none) ["a", "b"] p ∧
          normalizeShares (fun _ => none) ["a", "b"] p ≤ 1) ∧
      ((["a", "b"] : List String).map (normalizeShares (fun _ => none) ["a", "b"])).sum = 1 :=
  ⟨⟨by decide, by decide⟩,
    (normalizeShares_invariant (fun _ => none) ["a", "b"] (by decide) (by decide)).1,
    (normalizeShares_invariant (fun _ => none) ["a", "b"] (by decide) (by decide)).2.1⟩

/-- Counterexample to C8 as stated: with the duplicated party list
`["a", "a"]` and input share `a ↦ 1`, the division pass runs twice over
the single record key, leaving the entry at 1/4 — the mapping's entries
sum to 1/4, not 1. -/
theorem normalizeShares_duplicate_cex :
    normalizeShares (fun q => if q = "a" then some 1 else none) ["a", "a"] "a" = 1/4 ∧
      ((((["a", "a"] : List String).dedup).map
        (normalizeShares (fun q => if q = "a" then some 1 else none) ["a", "a"])).sum ≠ 1) := by
  constructor
  · decide!
  · decide!

/-- C9: running `runSTV` twice with the same seats, candidates and ballot
objects yields identical results, and the first run hands the caller's
ballots back unchanged (weights and rankings intact).  In the source the
counting loop mutates only the `weight`/`index` fields of the shallow
copies built by `{ ...ballot, index: 0 }` and never writes to a `ranking`
array, which is what the second component of the embedded `runSTV`
records; determinism of the second run is then immediate because the
embedded semantics is a pure function of the (unchanged) inputs. -/
theorem runSTV_deterministic (seats : ℕ) (candidates : List Candidate)
    (ballots : List RankedBallot) :
    (runSTV seats candidates ballots).2 = ballots ∧
      runSTV seats candidates ((runSTV seats candidates ballots).2)
        = runSTV seats candidates ballots :=
  ⟨rfl, rfl⟩

/-- The first repair loop conserves seats plus remainder. -/
theorem partsGrow_sum (mx : ℕ) : ∀ (l : List ℕ) (r : ℕ),
    (partsGrow mx l r).1.sum + (partsGrow mx l r).2 = l.sum + r := by
  intro l
  induction l with
  | nil => intro r; simp [partsGrow]
  | cons x xs ih =>
    intro r
    by_cases h0 : r = 0
    · simp [partsGrow, h0]
    · by_cases hx : x < mx
      · simp only [partsGrow, h0, if_false, hx, if_true, List.sum_cons]
        have := ih (r - 1)
        omega
      · simp only [partsGrow, h0, if_false, hx, List.sum_cons]
        have := ih r
        omega

/-- The second repair loop conserves seats plus remainder. -/
theorem partsShrink_sum (mx : ℕ) : ∀ (l : List ℕ) (r : ℕ),
    (partsShrink mx l r).1.sum + (partsShrink mx l r).2 = l.sum + r := by
  intro l
  induction l with
  | nil => intro r; simp [partsShrink]
  | cons x xs ih =>
    intro r
    by_cases hx : x > mx
    · simp only [partsShrink, hx, if_true, List.sum_cons]
      have := ih r
      omega
    · simp only [partsShrink, hx, if_false, List.sum_cons]
      have := ih r
      omega

/-- The third repair loop conserves seats plus remainder. -/
theorem partsRaise_sum (mn : ℕ) : ∀ (l : List ℕ) (r : ℕ),
    (partsRaise mn l r).1.sum + (partsRaise mn l r).2 = l.sum + r := by
  intro l
  induction l with
  | nil => intro r; simp [partsRaise]
  | cons x xs ih =>
    intro r
    simp only [partsRaise, List.sum_cons]
    have := ih (r - min (mn - x) r)
    have hmin : min (mn - x) r ≤ r := min_le_right _ _
    omega

/-- The repair loops preserve the number of parts. -/
theorem partsGrow_length (mx : ℕ) : ∀ (l : List ℕ) (r : ℕ),
    (partsGrow mx l r).1.length = l.length := by
  intro l
  induction l with
  | nil => intro r; simp [partsGrow]
  | cons x xs ih =>
    intro r
    by_cases h0 : r = 0
    · simp [partsGrow, h0]
    · by_cases hx : x < mx <;> simp [partsGrow, h0, hx, ih]

/-- The repair loops preserve the number of parts. -/
theorem partsShrink_length (mx : ℕ) : ∀ (l : List ℕ) (r : ℕ),
    (partsShrink mx l r).1.length = l.length := by
  intro l
  induction l with
  | nil => intro r; simp [partsShrink]
  | cons x xs ih =>
    intro r
    by_cases hx : x > mx <;> simp [partsShrink, hx, ih]

/-- The repair loops preserve the number of parts. -/
theorem partsRaise_length (mn : ℕ) : ∀ (l : List ℕ) (r : ℕ),
    (partsRaise mn l r).1.length = l.length := by
  intro l
  induction l with
  | nil => intro r; simp [partsRaise]
  | cons x xs ih =>
    intro r
    simp [partsRaise, ih]

/-- Any partition `buildBalancedParts` accepts sums to the total, stays in
`[min, max]`, and is non-empty. -/
theorem buildBalancedParts_sound (total count mn mx : ℕ) (parts : List ℕ)
    (h : buildBalancedParts total count mn mx = some parts) :
    parts.sum = total ∧ (∀ x ∈ parts, mn ≤ x ∧ x ≤ mx) ∧ parts ≠ [] := by
  unfold buildBalancedParts at h
  by_cases hc : count = 0
  · simp [hc] at h
  rw [if_neg hc] at h
  by_cases hg : count * mn > total ∨ count * mx < total
  · rw [if_pos hg] at h; cases h
  rw [if_neg hg] at h
  set base := total / count with hbase
  set s1 := partsGrow mx (List.replicate count base) (total - base * count) with hs1
  set s2 := partsShrink mx s1.1 s1.2 with hs2
  set s3 := partsRaise mn s2.1 s2.2 with hs3
  by_cases hz : s3.2 ≠ 0
  · rw [if_pos hz] at h; cases h
  rw [if_neg hz] at h
  by_cases ha : s3.1.any (fun v => decide (v < mn ∨ v > mx)) = true
  · rw [if_pos ha] at h; cases h
  rw [if_neg ha] at h
  have hparts : parts = s3.1.insertionSort (fun a b => b ≤ a) := by
    injection h with h'
    exact h'.symm
  subst hparts
  have hperm := List.perm_insertionSort (fun a b : ℕ => b ≤ a) s3.1
  have hsum3 : s3.1.sum = total := by
    have h3 := partsRaise_sum mn s2.1 s2.2
    have h2 := partsShrink_sum mx s1.1 s1.2
    have h1 := partsGrow_sum mx (List.replicate count base) (total - base * count)
    rw [← hs1] at h1
    rw [← hs2] at h2
    rw [← hs3] at h3
    have hrep : (List.replicate count base).sum = count * base := by
      rw [List.sum_replicate, smul_eq_mul]
    have hcomm : count * base = base * count := Nat.mul_comm _ _
    have hmul : base * count ≤ total := by
      rw [hbase]
      exact Nat.div_mul_le_self total count
    push_neg at hz
    omega
  have hlen3 : s3.1.length = count := by
    rw [hs3, partsRaise_length, hs2, partsShrink_length, hs1,
      partsGrow_length, List.length_replicate]
  refine ⟨hperm.sum_eq.trans hsum3, ?_, ?_⟩
  · intro x hx
    have hx3 : x ∈ s3.1 := hperm.mem_iff.mp hx
    by_contra hcon
    have : s3.1.any (fun v => decide (v < mn ∨ v > mx)) = true := by
      rw [List.any_eq_true]
      exact ⟨x, hx3, by simpa using (by omega : x < mn ∨ x > mx)⟩
    exact ha this
  · intro hcontra
    have hl := hperm.length_eq
    rw [hcontra, hlen3] at hl
    simp only [List.length_nil] at hl
    exact hc hl.symm

/-- On an even split the first repair loop clears the whole remainder:
each of the first `r` parts (all equal to `base < max`) takes one extra
seat. -/
theorem partsGrow_replicate (mx b : ℕ) : ∀ (n r : ℕ), r ≤ n → (0 < r → b < mx) →
    partsGrow mx (List.replicate n b) r
      = (List.replicate r (b + 1) ++ List.replicate (n - r) b, 0) := by
  intro n
  induction n with
  | zero =>
    intro r hr _
    interval_cases r
    simp [partsGrow]
  | succ n ih =>
    intro r hr hb
    cases r with
    | zero => simp [partsGrow, List.replicate_succ]
    | succ r' =>
      have hblt : b < mx := hb (Nat.succ_pos r')
      rw [List.replicate_succ]
      simp only [partsGrow, Nat.succ_ne_zero, if_false, hblt, if_true, Nat.add_sub_cancel]
      rw [ih r' (by omega) (fun _ => hblt)]
      simp [List.replicate_succ]

/-- The second repair loop is the identity when no part exceeds `max`. -/
theorem partsShrink_id (mx : ℕ) : ∀ (l : List ℕ) (r : ℕ), (∀ x ∈ l, x ≤ mx) →
    partsShrink mx l r = (l, r) := by
  intro l
  induction l with
  | nil => intro r _; simp [partsShrink]
  | cons x xs ih =>
    intro r hall
    have hx : ¬ x > mx := by
      have := hall x (List.mem_cons_self x xs)
      omega
    simp only [partsShrink, hx, if_false]
    rw [ih r (fun y hy => hall y (List.mem_cons_of_mem x hy))]

/-- The third repair loop does nothing once the remainder is zero. -/
theorem partsRaise_zero (mn : ℕ) : ∀ (l : List ℕ), partsRaise mn l 0 = (l, 0) := by
  intro l
  induction l with
  | nil => simp [partsRaise]
  | cons x xs ih =>
    simp [partsRaise, ih]

/-- Completeness of `buildBalancedParts`: whenever
`count·min ≤ total ≤ count·max` (with at least one district), the even
split plus repairs succeeds. -/
theorem buildBalancedParts_feasible (total count mn mx : ℕ) (hc : 1 ≤ count)
    (hlo : count * mn ≤ total) (hhi : total ≤ count * mx) :
    ∃ parts, buildBalancedParts total count mn mx = some parts := by
  unfold buildBalancedParts
  rw [if_neg (by omega : ¬ count = 0)]
  rw [if_neg (by omega : ¬ (count * mn > total ∨ count * mx < total))]
  simp only []
  set base := total / count with hbase
  set rem := total - base * count with hrem
  have hdm := Nat.div_add_mod total count
  rw [← hbase] at hdm
  have hmodlt : total % count < count := Nat.mod_lt total (by omega)
  have hcomm : count * base = base * count := Nat.mul_comm _ _
  have hremmod : rem = total % count := by omega
  have hremlt : rem < count := by omega
  have hbasele : base ≤ mx := by
    have h1 : total / count ≤ (count * mx) / count := Nat.div_le_div_right hhi
    rwa [Nat.mul_div_cancel_left mx (by omega : 0 < count)] at h1
  have hbasege : mn ≤ base := by
    rw [hbase, Nat.le_div_iff_mul_le (by omega : 0 < count)]
    calc mn * count = count * mn := Nat.mul_comm _ _
    _ ≤ total := hlo
  have hbaselt : 0 < rem → base < mx := by
    intro hpos
    by_contra hcon
    have hbe : base = mx := by omega
    have h1 : total ≤ count * base := by
      rw [hbe]
      exact hhi
    omega
  rw [partsGrow_replicate mx base count rem (by omega) hbaselt]
  have hallle : ∀ x ∈ List.replicate rem (base + 1) ++ List.replicate (count - rem) base,
      x ≤ mx := by
    intro x hx
    rcases List.mem_append.mp hx with hx | hx
    · have hr : 0 < rem := by
        rcases Nat.eq_zero_or_pos rem with h0 | h0
        · rw [h0] at hx; simp at hx
        · exact h0
      have := List.eq_of_mem_replicate hx
      have := hbaselt hr
      omega
    · have := List.eq_of_mem_replicate hx
      omega
  rw [partsShrink_id mx _ 0 hallle, partsRaise_zero]
  rw [if_neg (by simp : ¬ ((0 : ℕ) ≠ 0))]
  have hnone : ¬ (List.replicate rem (base + 1) ++ List.replicate (count - rem) base).any
      (fun v => decide (v < mn ∨ v > mx)) = true := by
    rw [List.any_eq_true]
    rintro ⟨x, hx, hdec⟩
    have hxle := hallle x hx
    have hxge : mn ≤ x := by
      rcases List.mem_append.mp hx with hx | hx
      · have := List.eq_of_mem_replicate hx
        omega
      · have := List.eq_of_mem_replicate hx
        omega
    simp only [decide_eq_true_eq] at hdec
    omega
  rw [if_neg hnone]
  exact ⟨_, rfl⟩

/-- A successful `buildBalancedParts` call certifies its count feasible. -/
theorem buildBalancedParts_some_feasible (total count mn mx : ℕ) (parts : List ℕ)
    (h : buildBalancedParts total count mn mx = some parts) :
    1 ≤ count ∧ count * mn ≤ total ∧ total ≤ count * mx := by
  unfold buildBalancedParts at h
  by_cases hc : count = 0
  · rw [if_pos hc] at h; cases h
  rw [if_neg hc] at h
  by_cases hg : count * mn > total ∨ count * mx < total
  · rw [if_pos hg] at h; cases h
  push_neg at hg
  exact ⟨by omega, hg.1, hg.2⟩

/-- Any partition the best-score fold returns came from a successful
`buildBalancedParts` call. -/
theorem bestPartsGo_sound (total target mn mx : ℕ) :
    ∀ (counts : List ℕ) (acc : Option (ℚ × List ℕ)),
      (∀ sc parts, acc = some (sc, parts) → ∃ c, buildBalancedParts total c mn mx = some parts) →
      ∀ sc parts,
        counts.foldl
          (fun best count =>
            match buildBalancedParts total count mn mx with
            | none => best
            | some parts =>
              let score := scorePlan parts target
              match best with
              | none => some (score, parts)
              | some b => if score < b.1 then some (score, parts) else some b)
          acc = some (sc, parts) →
        ∃ c, buildBalancedParts total c mn mx = some parts := by
  intro counts
  induction counts with
  | nil =>
    intro acc hacc sc parts h
    exact hacc sc parts h
  | cons c rest ih =>
    intro acc hacc sc parts h
    simp only [List.foldl_cons] at h
    refine ih _ ?_ sc parts h
    intro sc' parts' hstep
    rcases hbb : buildBalancedParts total c mn mx with _ | newparts
    · rw [hbb] at hstep
      exact hacc sc' parts' hstep
    · rw [hbb] at hstep
      rcases acc with _ | b
      · simp only [] at hstep
        injection hstep with h1
        obtain ⟨rfl, rfl⟩ : scorePlan newparts target = sc' ∧ newparts = parts' := by
          have := congrArg Prod.fst h1
          have h2 := congrArg Prod.snd h1
          exact ⟨this, h2⟩
        exact ⟨c, hbb⟩
      · simp only [] at hstep
        by_cases hsc : scorePlan newparts target < b.1
        · rw [if_pos hsc] at hstep
          injection hstep with h1
          have h2 := congrArg Prod.snd h1
          simp only [] at h2
          exact h2 ▸ ⟨c, hbb⟩
        · rw [if_neg hsc] at hstep
          injection hstep with h1
          exact hacc sc' parts' (by rw [h1])

/-- The best-score fold never discards an already-found partition, and a
feasible candidate count forces it to return one. -/
theorem bestPartsGo_some (total target mn mx : ℕ) :
    ∀ (counts : List ℕ) (acc : Option (ℚ × List ℕ)),
      (acc ≠ none ∨ ∃ c ∈ counts, buildBalancedParts total c mn mx ≠ none) →
      counts.foldl
        (fun best count =>
          match buildBalancedParts total count mn mx with
          | none => best
          | some parts =>
            let score := scorePlan parts target
            match best with
            | none => some (score, parts)
            | some b => if score < b.1 then some (score, parts) else some b)
        acc ≠ none := by
  intro counts
  induction counts with
  | nil =>
    intro acc hacc
    rcases hacc with h | ⟨c, hc, _⟩
    · simpa using h
    · cases hc
  | cons c rest ih =>
    intro acc hacc
    simp only [List.foldl_cons]
    apply ih
    rcases hbb : buildBalancedParts total c mn mx with _ | newparts
    · rcases hacc with h | ⟨c', hc', hbb'⟩
      · exact Or.inl (by simpa [hbb] using h)
      · rcases List.mem_cons.mp hc' with rfl | hmem
        · exact absurd hbb hbb'
        · exact Or.inr ⟨c', hmem, hbb'⟩
    · left
      rcases acc with _ | b
      · simp
      · simp only []
        by_cases hsc : scorePlan newparts target < b.1 <;> simp [hsc]

/-- When every candidate count fails, the best-score fold returns nothing. -/
theorem bestPartsGo_none (total target mn mx : ℕ) :
    ∀ (counts : List ℕ),
      (∀ c ∈ counts, buildBalancedParts total c mn mx = none) →
      counts.foldl
        (fun best count =>
          match buildBalancedParts total count mn mx with
          | none => best
          | some parts =>
            let score := scorePlan parts target
            match best with
            | none => some (score, parts)
            | some b => if score < b.1 then some (score, parts) else some b)
        none = none := by
  intro counts
  induction counts with
  | nil => intro _; rfl
  | cons c rest ih =>
    intro hall
    simp only [List.foldl_cons, hall c (List.mem_cons_self c rest)]
    exact ih (fun c' hc' => hall c' (List.mem_cons_of_mem c hc'))

/-- The clamped settings always satisfy `1 ≤ min ≤ max`. -/
theorem clampPRSettings_bounds (settings : PRSettings) :
    1 ≤ (clampPRSettings settings).minDistrictSeats ∧
      (clampPRSettings settings).minDistrictSeats ≤ (clampPRSettings settings).maxDistrictSeats := by
  unfold clampPRSettings
  simp only []
  omega

/-- Core C6 content at the level of `chooseDistrictSeatCounts`: the chosen
seat counts always sum to the total; they respect the `[min, max]` bounds
whenever some district count is feasible; and with no feasible count the
fallback is the single all-seats district. -/
theorem chooseDistrictSeatCounts_spec (total target mn mx : ℕ)
    (htotal : 1 ≤ total) (hmn : 1 ≤ mn) (hmnmx : mn ≤ mx) :
    (chooseDistrictSeatCounts total target mn mx).sum = total ∧
      ((∃ c, 1 ≤ c ∧ c * mn ≤ total ∧ total ≤ c * mx) →
        ∀ x ∈ chooseDistrictSeatCounts total target mn mx, mn ≤ x ∧ x ≤ mx) ∧
      ((¬ ∃ c, 1 ≤ c ∧ c * mn ≤ total ∧ total ≤ c * mx) →
        chooseDistrictSeatCounts total target mn mx = [total]) := by
  unfold chooseDistrictSeatCounts
  by_cases hlt : total < mn
  · have hnofe : ¬ ∃ c, 1 ≤ c ∧ c * mn ≤ total ∧ total ≤ c * mx := by
      rintro ⟨c, hc1, hc2, _⟩
      have : mn ≤ c * mn := Nat.le_mul_of_pos_left mn (by omega)
      omega
    by_cases hb1 : total ≤ mx ∧ total < mn
    · rw [if_pos hb1]
      exact ⟨by simp, fun hfe => absurd hfe hnofe, fun _ => rfl⟩
    · rw [if_neg hb1, if_pos hlt]
      exact ⟨by simp, fun hfe => absurd hfe hnofe, fun _ => rfl⟩
  · rw [if_neg (by omega : ¬ (total ≤ mx ∧ total < mn)), if_neg hlt]
    simp only []
    set minCount := (total + mx - 1) / mx with hminC
    set maxCount := max minCount (total / mn) with hmaxC
    have hrange : ∀ c, 1 ≤ c → c * mn ≤ total → total ≤ c * mx →
        c ∈ List.range' minCount (maxCount + 1 - minCount) := by
      intro c hc1 hc2 hc3
      rw [List.mem_range'_1]
      have hcomm1 : c * mx = mx * c := Nat.mul_comm _ _
      have hlow : minCount ≤ c := by
        rw [hminC, Nat.div_le_iff_le_mul_add_pred (by omega : 0 < mx)]
        omega
      have hup : c ≤ maxCount := by
        have : c ≤ total / mn := by
          rw [Nat.le_div_iff_mul_le (by omega : 0 < mn)]
          exact hc2
        rw [hmaxC]
        omega
      omega
    rcases hbp : bestParts total target mn mx
        (List.range' minCount (maxCount + 1 - minCount)) with _ | b
    · -- fold found nothing: only possible when no count is feasible
      have hnofe : ¬ ∃ c, 1 ≤ c ∧ c * mn ≤ total ∧ total ≤ c * mx := by
        rintro ⟨c, hc1, hc2, hc3⟩
        have hsome := bestPartsGo_some total target mn mx
          (List.range' minCount (maxCount + 1 - minCount)) none
          (Or.inr ⟨c, hrange c hc1 hc2 hc3, by
            obtain ⟨parts, hparts⟩ := buildBalancedParts_feasible total c mn mx hc1 hc2 hc3
            rw [hparts]
            simp⟩)
        exact hsome hbp
      exact ⟨by simp, fun hfe => absurd hfe hnofe, fun _ => rfl⟩
    · obtain ⟨c, hc⟩ := bestPartsGo_sound total target mn mx
        (List.range' minCount (maxCount + 1 - minCount)) none
        (by intro sc parts h; cases h) b.1 b.2 hbp
      obtain ⟨hsum, hbounds, _⟩ := buildBalancedParts_sound total c mn mx b.2 hc
      have hfe := buildBalancedParts_some_feasible total c mn mx b.2 hc
      exact ⟨hsum, fun _ => hbounds, fun hnofe => absurd ⟨c, hfe⟩ hnofe⟩

/-- The district seat counts `buildDistrictPlan` publishes are exactly the
counts `chooseDistrictSeatCounts` picked for the clamped settings. -/
theorem buildDistrictPlan_counts (stateCode : String) (totalSeats : ℕ) (settings : PRSettings) :
    (buildDistrictPlan stateCode totalSeats settings).districts.map DistrictSpec.seats
      = chooseDistrictSeatCounts totalSeats (clampPRSettings settings).districtSeatTarget
          (clampPRSettings settings).minDistrictSeats
          (clampPRSettings settings).maxDistrictSeats := by
  unfold buildDistrictPlan
  simp only [List.map_map]
  exact List.enum_map_snd _

/-- C6: for every `totalSeats ≥ 1` the district seat counts of
`buildDistrictPlan` sum exactly to `totalSeats`; whenever some district
count `c` satisfies `c·min ≤ totalSeats ≤ c·max` (for the clamped
settings) every district's seat count lies in `[min, max]`; with no such
`c` the plan is a single district holding all seats; and the concrete
instance `totalSeats = 11, target = 5, min = 3, max = 7` yields counts in
`[3, 7]` summing to 11. -/
theorem buildDistrictPlan_spec (stateCode : String) (totalSeats : ℕ) (settings : PRSettings)
    (htotal : 1 ≤ totalSeats) :
    ((buildDistrictPlan stateCode totalSeats settings).districts.map DistrictSpec.seats).sum
        = totalSeats ∧
      ((∃ c, 1 ≤ c ∧ c * (clampPRSettings settings).minDistrictSeats ≤ totalSeats ∧
          totalSeats ≤ c * (clampPRSettings settings).maxDistrictSeats) →
        ∀ x ∈ (buildDistrictPlan stateCode totalSeats settings).districts.map DistrictSpec.seats,
          (clampPRSettings settings).minDistrictSeats ≤ x ∧
            x ≤ (clampPRSettings settings).maxDistrictSeats) ∧
      ((¬ ∃ c, 1 ≤ c ∧ c * (clampPRSettings settings).minDistrictSeats ≤ totalSeats ∧
          totalSeats ≤ c * (clampPRSettings settings).maxDistrictSeats) →
        (buildDistrictPlan stateCode totalSeats settings).districts.map DistrictSpec.seats
          = [totalSeats]) ∧
      (((buildDistrictPlan stateCode 11 ⟨5, 3, 7, false, 0, 100⟩).districts.map
          DistrictSpec.seats).sum = 11 ∧
        ∀ x ∈ (buildDistrictPlan stateCode 11 ⟨5, 3, 7, false, 0, 100⟩).districts.map
          DistrictSpec.seats, 3 ≤ x ∧ x ≤ 7) := by
  obtain ⟨hmn, hmnmx⟩ := clampPRSettings_bounds settings
  obtain ⟨hsum, hbounds, hfallback⟩ := chooseDistrictSeatCounts_spec totalSeats
    (clampPRSettings settings).districtSeatTarget (clampPRSettings settings).minDistrictSeats
    (clampPRSettings settings).maxDistrictSeats htotal hmn hmnmx
  rw [buildDistrictPlan_counts]
  refine ⟨hsum, hbounds, hfallback, ?_, ?_⟩
  · rw [buildDistrictPlan_counts]
    decide!
  · rw [buildDistrictPlan_counts]
    decide!

/-- Witness for C6 at the claim's own instance
`totalSeats = 11, target = 5, min = 3, max = 7`. -/
theorem buildDistrictPlan_spec_witness :
    (1 : ℕ) ≤ 11 ∧
      (((buildDistrictPlan "XX" 11 ⟨5, 3, 7, false, 0, 100⟩).districts.map
          DistrictSpec.seats).sum = 11 ∧
        ∀ x ∈ (buildDistrictPlan "XX" 11 ⟨5, 3, 7, false, 0, 100⟩).districts.map
          DistrictSpec.seats, 3 ≤ x ∧ x ≤ 7) :=
  ⟨by decide,
    (buildDistrictPlan_spec "XX" 11 ⟨5, 3, 7, false, 0, 100⟩ (by decide)).2.2.2⟩

/-- `electGo` never removes anyone from the elected list. -/
theorem electGo_elected_mono (seats : ℕ) (quota : ℤ) :
    ∀ (ws : List (String × ℚ)) (act el : List String) (bal : List WBallot),
      el.length ≤ (electGo seats quota ws act el bal).2.1.length := by
  intro ws
  induction ws with
  | nil => intro act el bal; exact le_refl _
  | cons w rest ih =>
    intro act el bal
    by_cases hcond : w.1 ∈ act ∧ el.length < seats
    · simp only [electGo, if_pos hcond]
      calc el.length ≤ (el ++ [w.1]).length := by simp
      _ ≤ _ := ih _ _ _
    · simp only [electGo, if_neg hcond]
      exact ih _ _ _

/-- `electGo` never adds anyone to the active list. -/
theorem electGo_active_mono (seats : ℕ) (quota : ℤ) :
    ∀ (ws : List (String × ℚ)) (act el : List String) (bal : List WBallot),
      (electGo seats quota ws act el bal).1.length ≤ act.length := by
  intro ws
  induction ws with
  | nil => intro act el bal; exact le_refl _
  | cons w rest ih =>
    intro act el bal
    by_cases hcond : w.1 ∈ act ∧ el.length < seats
    · simp only [electGo, if_pos hcond]
      calc (electGo seats quota rest (act.erase w.1) (el ++ [w.1])
            (transferSurplus w.1 w.2 quota (fun c => act.contains c) bal)).1.length
          ≤ (act.erase w.1).length := ih _ _ _
      _ ≤ act.length := (List.erase_sublist w.1 act).length_le
    · simp only [electGo, if_neg hcond]
      exact ih _ _ _

/-- A quota-reaching first winner is elected: the elected list strictly
grows. -/
theorem electGo_elected_strict (seats : ℕ) (quota : ℤ) (w : String × ℚ)
    (rest : List (String × ℚ)) (act el : List String) (bal : List WBallot)
    (hmem : w.1 ∈ act) (hlt : el.length < seats) :
    el.length < (electGo seats quota (w :: rest) act el bal).2.1.length := by
  simp only [electGo, if_pos (And.intro hmem hlt)]
  calc el.length < (el ++ [w.1]).length := by simp
  _ ≤ _ := electGo_elected_mono seats quota rest _ _ _

/-- A quota-reaching first winner leaves the active set: the active list
strictly shrinks. -/
theorem electGo_active_strict (seats : ℕ) (quota : ℤ) (w : String × ℚ)
    (rest : List (String × ℚ)) (act el : List String) (bal : List WBallot)
    (hmem : w.1 ∈ act) (hlt : el.length < seats) :
    (electGo seats quota (w :: rest) act el bal).1.length < act.length := by
  simp only [electGo, if_pos (And.intro hmem hlt)]
  calc (electGo seats quota rest (act.erase w.1) (el ++ [w.1])
        (transferSurplus w.1 w.2 quota (fun c => act.contains c) bal)).1.length
      ≤ (act.erase w.1).length := electGo_active_mono seats quota rest _ _ _
  _ < act.length := by
    rw [List.length_erase_of_mem hmem]
    have := List.length_pos.mpr (List.ne_nil_of_mem hmem)
    omega

/-- Each full counting iteration (when neither exit applies) either elects
at least one candidate or eliminates exactly one, leaving the elected list
untouched in the latter case. -/
theorem stvStep_progress (st : STVState) (h1 : st.elected.length < st.seats)
    (h2 : 0 < st.active.length) :
    st.elected.length < (stvStep st).elected.length ∨
      ((stvStep st).active.length + 1 = st.active.length ∧ (stvStep st).elected = st.elected) := by
  unfold stvStep
  simp only []
  set t := tallyGo (fun c => st.active.contains c) (fun _ => 0) st.ballots with ht
  set entries := st.active.map (fun c => (c, t.2 c)) with hentries
  set winners := entries.filter (fun p => decide ((st.quota : ℚ) ≤ p.2)) with hwinners
  by_cases hw : winners.length > 0
  · rw [if_pos hw]
    left
    have hperm := List.perm_insertionSort winnerBefore winners
    rcases hsorted : winners.insertionSort winnerBefore with _ | ⟨w, ws⟩
    · exfalso
      rw [hsorted] at hperm
      have hl := hperm.length_eq
      simp only [List.length_nil] at hl
      omega
    · have hwmem : w ∈ winners := by
        rw [hsorted] at hperm
        exact hperm.mem_iff.mp (List.mem_cons_self _ _)
      have hwent : w ∈ entries := List.mem_of_mem_filter hwmem
      have hwact : w.1 ∈ st.active := by
        rw [hentries] at hwent
        rcases List.mem_map.mp hwent with ⟨c, hc, rfl⟩
        exact hc
      exact electGo_elected_strict st.seats st.quota w ws st.active st.elected t.1 hwact h1
  · rw [if_neg hw]
    have hperm := List.perm_insertionSort lowestBefore entries
    rcases hsorted : entries.insertionSort lowestBefore with _ | ⟨p, ps⟩
    · exfalso
      rw [hsorted] at hperm
      have hl := hperm.length_eq
      simp only [List.length_nil] at hl
      rw [hentries] at hl
      rw [List.length_map] at hl
      omega
    · have hpmem : p ∈ entries := by
        rw [hsorted] at hperm
        exact hperm.mem_iff.mp (List.mem_cons_self _ _)
      have hpact : p.1 ∈ st.active := by
        rw [hentries] at hpmem
        rcases List.mem_map.mp hpmem with ⟨c, hc, rfl⟩
        exact hc
      right
      refine ⟨?_, rfl⟩
      simp only []
      rw [List.length_erase_of_mem hpact]
      omega

/-- The active set strictly shrinks on every iteration that loops again. -/
theorem stvStep_active_lt (st : STVState) (h1 : st.elected.length < st.seats)
    (h2 : 0 < st.active.length) :
    (stvStep st).active.length < st.active.length := by
  unfold stvStep
  simp only []
  set t := tallyGo (fun c => st.active.contains c) (fun _ => 0) st.ballots with ht
  set entries := st.active.map (fun c => (c, t.2 c)) with hentries
  set winners := entries.filter (fun p => decide ((st.quota : ℚ) ≤ p.2)) with hwinners
  by_cases hw : winners.length > 0
  · rw [if_pos hw]
    have hperm := List.perm_insertionSort winnerBefore winners
    rcases hsorted : winners.insertionSort winnerBefore with _ | ⟨w, ws⟩
    · exfalso
      rw [hsorted] at hperm
      have hl := hperm.length_eq
      simp only [List.length_nil] at hl
      omega
    · have hwmem : w ∈ winners := by
        rw [hsorted] at hperm
        exact hperm.mem_iff.mp (List.mem_cons_self _ _)
      have hwent : w ∈ entries := List.mem_of_mem_filter hwmem
      have hwact : w.1 ∈ st.active := by
        rw [hentries] at hwent
        rcases List.mem_map.mp hwent with ⟨c, hc, rfl⟩
        exact hc
      exact electGo_active_strict st.seats st.quota w ws st.active st.elected t.1 hwact h1
  · rw [if_neg hw]
    have hperm := List.perm_insertionSort lowestBefore entries
    rcases hsorted : entries.insertionSort lowestBefore with _ | ⟨p, ps⟩
    · exfalso
      rw [hsorted] at hperm
      have hl := hperm.length_eq
      simp only [List.length_nil] at hl
      rw [hentries] at hl
      rw [List.length_map] at hl
      omega
    · have hpmem : p ∈ entries := by
        rw [hsorted] at hperm
        exact hperm.mem_iff.mp (List.mem_cons_self _ _)
      have hpact : p.1 ∈ st.active := by
        rw [hentries] at hpmem
        rcases List.mem_map.mp hpmem with ⟨c, hc, rfl⟩
        exact hc
      simp only []
      rw [List.length_erase_of_mem hpact]
      omega

/-- Once the loop condition fails, any fuel returns the state unchanged. -/
theorem stvLoop_exit (st : STVState)
    (h : ¬ (st.elected.length < st.seats ∧ 0 < st.active.length)) :
    ∀ fuel, stvLoop fuel st = st := by
  intro fuel
  cases fuel with
  | zero => rfl
  | succ f => simp only [stvLoop, if_neg h]

/-- Termination of the counting loop: any two fuels at least the number of
active candidates produce the same final state. -/
theorem stvLoop_fuel_eq (n : ℕ) : ∀ (st : STVState) (fuel fuel' : ℕ),
    st.active.length = n → n ≤ fuel → n ≤ fuel' →
    stvLoop fuel st = stvLoop fuel' st := by
  induction n using Nat.strong_induction_on with
  | _ n ih =>
    intro st fuel fuel' hn hf hf'
    by_cases hcond : st.elected.length < st.seats ∧ 0 < st.active.length
    · have hnpos : 0 < n := by omega
      obtain ⟨f, rfl⟩ : ∃ f, fuel = f + 1 := ⟨fuel - 1, by omega⟩
      obtain ⟨f', rfl⟩ : ∃ f', fuel' = f' + 1 := ⟨fuel' - 1, by omega⟩
      simp only [stvLoop, if_pos hcond]
      by_cases hbulk : st.active.length ≤ st.seats - st.elected.length
      · rw [if_pos hbulk, if_pos hbulk]
      · rw [if_neg hbulk, if_neg hbulk]
        have hlt := stvStep_active_lt st hcond.1 hcond.2
        exact ih (stvStep st).active.length (by omega) (stvStep st) f f' rfl (by omega) (by omega)
    · rw [stvLoop_exit st hcond, stvLoop_exit st hcond]

/-- C5 (amended): the `runSTV` counting loop terminates — any fuel of at
least the active-candidate count yields the same result, because every
iteration that loops again removes at least one active candidate — and
each such iteration either elects at least one candidate or eliminates
exactly one (leaving the elected list unchanged); a single iteration can
elect several candidates, as `stv_multi_elect_cex` shows. -/
theorem stv_termination_and_round_progress :
    (∀ (st : STVState) (fuel fuel' : ℕ), st.active.length ≤ fuel → st.active.length ≤ fuel' →
      stvLoop fuel st = stvLoop fuel' st) ∧
    (∀ st : STVState, st.elected.length < st.seats → 0 < st.active.length →
      st.seats - st.elected.length < st.active.length →
      st.elected.length < (stvStep st).elected.length ∨
        ((stvStep st).active.length + 1 = st.active.length ∧
          (stvStep st).elected = st.elected)) :=
  ⟨fun st fuel fuel' h h' => stvLoop_fuel_eq st.active.length st fuel fuel' rfl h h',
   fun st h1 h2 _ => stvStep_progress st h1 h2⟩

/-- Witness for C5's amended statement on the concrete two-seat example. -/
theorem stv_termination_and_round_progress_witness :
    stvLoop 3 stvExampleState = stvLoop 5 stvExampleState ∧
      (stvExampleState.elected.length < (stvStep stvExampleState).elected.length ∨
        ((stvStep stvExampleState).active.length + 1 = stvExampleState.active.length ∧
          (stvStep stvExampleState).elected = stvExampleState.elected)) :=
  ⟨stv_termination_and_round_progress.1 stvExampleState 3 5 (by decide) (by decide),
   stv_termination_and_round_progress.2 stvExampleState (by decide) (by decide) (by decide)⟩

/-- Counterexample to C5 as stated: on `stvExampleState` (two seats, four
ballots, quota 2) the very first counting iteration elects *two*
candidates — `a` and `b` both reach quota — so an iteration need not elect
or eliminate exactly one candidate. -/
theorem stv_multi_elect_cex :
    stvExampleState.elected.length = 0 ∧
      stvExampleState.elected.length < stvExampleState.seats ∧
      0 < stvExampleState.active.length ∧
      stvExampleState.seats - stvExampleState.elected.length < stvExampleState.active.length ∧
      (stvStep stvExampleState).elected.length = 2 := by
  refine ⟨by decide, by decide, by decide, by decide, ?_⟩
  decide!

/-- Code-point order is irreflexive. -/
theorem lexLtB_irrefl : ∀ xs : List Char, lexLtB xs xs = false := by
  intro xs
  induction xs with
  | nil => rfl
  | cons x rest ih => simp [lexLtB, ih]

/-- Code-point order is asymmetric. -/
theorem lexLtB_asymm : ∀ xs ys : List Char, lexLtB xs ys = true → lexLtB ys xs = false := by
  intro xs
  induction xs with
  | nil =>
    intro ys h
    cases ys with
    | nil => simp [lexLtB] at h
    | cons y ys' => rfl
  | cons x rest ih =>
    intro ys h
    cases ys with
    | nil => cases h
    | cons y ys' =>
      simp only [lexLtB] at h ⊢
      by_cases h1 : x.toNat < y.toNat
      · rw [if_neg (by omega : ¬ y.toNat < x.toNat), if_pos h1]
      · rw [if_neg h1] at h
        by_cases h2 : y.toNat < x.toNat
        · rw [if_pos h2] at h; cases h
        · rw [if_neg h2] at h
          rw [if_neg h2, if_neg h1]
          exact ih ys' h

/-- Code-point order is transitive. -/
theorem lexLtB_trans : ∀ xs ys zs : List Char,
    lexLtB xs ys = true → lexLtB ys zs = true → lexLtB xs zs = true := by
  intro xs
  induction xs with
  | nil =>
    intro ys zs h1 h2
    cases ys with
    | nil => exact h2
    | cons y ys' =>
      cases zs with
      | nil => cases h2
      | cons z zs' => rfl
  | cons x rest ih =>
    intro ys zs h1 h2
    cases ys with
    | nil => cases h1
    | cons y ys' =>
      cases zs with
      | nil => cases h2
      | cons z zs' =>
        simp only [lexLtB] at h1 h2 ⊢
        by_cases hxy : x.toNat < y.toNat
        · by_cases hyz : y.toNat < z.toNat
          · rw [if_pos (by omega : x.toNat < z.toNat)]
          · rw [if_neg hyz] at h2
            by_cases hzy : z.toNat < y.toNat
            · rw [if_pos hzy] at h2; cases h2
            · have : y.toNat = z.toNat := by omega
              rw [if_pos (by omega : x.toNat < z.toNat)]
        · rw [if_neg hxy] at h1
          by_cases hyx : y.toNat < x.toNat
          · rw [if_pos hyx] at h1; cases h1
          · rw [if_neg hyx] at h1
            have hxeqy : x.toNat = y.toNat := by omega
            by_cases hyz : y.toNat < z.toNat
            · rw [if_pos (by omega : x.toNat < z.toNat)]
            · rw [if_neg hyz] at h2
              by_cases hzy : z.toNat < y.toNat
              · rw [if_pos hzy] at h2; cases h2
              · rw [if_neg hzy] at h2
                rw [if_neg (by omega : ¬ x.toNat < z.toNat),
                  if_neg (by omega : ¬ z.toNat < x.toNat)]
                exact ih ys' zs' h1 h2

/-- Two lists unrelated by the code-point order are equal. -/
theorem lexLtB_eq_of_not : ∀ xs ys : List Char,
    lexLtB xs ys = false → lexLtB ys xs = false → xs = ys := by
  intro xs
  induction xs with
  | nil =>
    intro ys h1 _
    cases ys with
    | nil => rfl
    | cons y ys' => cases h1
  | cons x rest ih =>
    intro ys h1 h2
    cases ys with
    | nil => cases h2
    | cons y ys' =>
      simp only [lexLtB] at h1 h2
      by_cases hxy : x.toNat < y.toNat
      · rw [if_pos hxy] at h1; cases h1
      · rw [if_neg hxy] at h1
        by_cases hyx : y.toNat < x.toNat
        · rw [if_pos hyx] at h2; cases h2
        · rw [if_neg hyx] at h1
          rw [if_neg hyx, if_neg hxy] at h2
          have hn : x.toNat = y.toNat := by omega
          have hchar : x = y := Char.ext (UInt32.ext hn)
          rw [hchar, ih ys' h1 h2]

/-- `codeLe` is reflexive. -/
theorem codeLe_refl (a : String) : codeLe a a = true := by
  unfold codeLe codeLt
  rw [lexLtB_irrefl]
  rfl

/-- `codeLe` is total. -/
theorem codeLe_total (a b : String) : codeLe a b = true ∨ codeLe b a = true := by
  unfold codeLe codeLt
  by_cases h : lexLtB b.data a.data = true
  · right
    rw [lexLtB_asymm _ _ h]
    rfl
  · left
    rw [Bool.not_eq_true] at h
    rw [h]
    rfl

/-- `codeLe` is transitive. -/
theorem codeLe_trans (a b c : String) (h1 : codeLe a b = true) (h2 : codeLe b c = true) :
    codeLe a c = true := by
  unfold codeLe codeLt at h1 h2 ⊢
  rw [Bool.not_eq_eq_eq_not, Bool.not_true] at h1 h2 ⊢
  by_cases hca : lexLtB c.data a.data = true
  · by_cases hcb : lexLtB c.data b.data = true
    · rw [hcb] at h2; cases h2
    · rw [Bool.not_eq_true] at hcb
      have hbc_or : b.data = c.data ∨ lexLtB b.data c.data = true := by
        by_cases hbc : lexLtB b.data c.data = true
        · exact Or.inr hbc
        · rw [Bool.not_eq_true] at hbc
          exact Or.inl (lexLtB_eq_of_not _ _ hbc hcb)
      rcases hbc_or with heq | hlt
      · rw [← heq] at hca
        rw [hca] at h1
        cases h1
      · have := lexLtB_trans _ _ _ hlt hca
        rw [this] at h1
        cases h1
  · rw [Bool.not_eq_true] at hca
    exact hca

/-- The heap order `entryLe` is reflexive. -/
theorem entryLe_refl (a : PriorityEntry) : entryLe a a :=
  Or.inr ⟨rfl, codeLe_refl a.state⟩

/-- The heap order `entryLe` is total. -/
theorem entryLe_total (a b : PriorityEntry) : entryLe a b ∨ entryLe b a := by
  rcases lt_trichotomy a.priority b.priority with h | h | h
  · exact Or.inl (Or.inl h)
  · rcases codeLe_total b.state a.state with hc | hc
    · exact Or.inl (Or.inr ⟨h, hc⟩)
    · exact Or.inr (Or.inr ⟨h.symm, hc⟩)
  · exact Or.inr (Or.inl h)

/-- The heap order `entryLe` is transitive. -/
theorem entryLe_trans (a b c : PriorityEntry) (h1 : entryLe a b) (h2 : entryLe b c) :
    entryLe a c := by
  rcases h1 with h1 | ⟨h1p, h1s⟩
  · rcases h2 with h2 | ⟨h2p, _⟩
    · exact Or.inl (h1.trans h2)
    · exact Or.inl (h2p ▸ h1)
  · rcases h2 with h2 | ⟨h2p, h2s⟩
    · exact Or.inl (h1p ▸ h2)
    · exact Or.inr ⟨h1p.trans h2p, codeLe_trans c.state b.state a.state h2s h1s⟩

/-- The comparator's sign agrees with the heap order: `compareEntries a b ≤ 0`
exactly when `entryLe a b`. -/
theorem compareEntries_nonpos (a b : PriorityEntry) :
    compareEntries a b ≤ 0 ↔ entryLe a b := by
  unfold compareEntries strCmp entryLe codeLe codeLt
  by_cases hp : a.priority = b.priority
  · rw [if_pos hp]
    by_cases hba : lexLtB b.state.data a.state.data = true
    · rw [if_pos hba]
      have := lexLtB_asymm _ _ hba
      constructor
      · intro _
        right
        refine ⟨hp, ?_⟩
        rw [this]
        rfl
      · intro _; norm_num
    · rw [if_neg hba]
      by_cases hab : lexLtB a.state.data b.state.data = true
      · rw [if_pos hab]
        constructor
        · intro hcon; norm_num at hcon
        · rintro (hcon | ⟨_, hcon⟩)
          · exact absurd hcon (by rw [hp]; exact lt_irrefl _)
          · rw [hab] at hcon; cases hcon
      · rw [if_neg hab]
        constructor
        · intro _
          right
          refine ⟨hp, ?_⟩
          rw [Bool.not_eq_true] at hab
          rw [hab]
          rfl
        · intro _; norm_num
  · rw [if_neg hp]
    constructor
    · intro h
      left
      have : a.priority ≤ b.priority := by linarith
      exact lt_of_le_of_ne this hp
    · rintro (h | ⟨hcon, _⟩)
      · linarith
      · exact absurd hcon hp

/-- The comparator is strictly positive exactly when `entryLe a b` fails. -/
theorem compareEntries_pos (a b : PriorityEntry) :
    0 < compareEntries a b ↔ ¬ entryLe a b := by
  rw [← compareEntries_nonpos]
  constructor
  · intro h hcon; linarith
  · intro h
    by_contra hcon
    exact h (by linarith)

namespace MaxHeap

/-- Swapping preserves the length. -/
theorem length_hswap (l : List PriorityEntry) (i j : ℕ) :
    (hswap l i j).length = l.length := by
  simp [hswap]

/-- Reading a swapped list: position `j` holds the old `i` entry, position
`i` holds the old `j` entry, everything else is unchanged. -/
theorem getD_hswap (l : List PriorityEntry) (i j k : ℕ)
    (hi : i < l.length) (hj : j < l.length) :
    (hswap l i j).getD k dEntry
      = if k = j then l.getD i dEntry
        else if k = i then l.getD j dEntry
        else l.getD k dEntry := by
  by_cases hkj : k = j
  · subst hkj
    simp [hswap, List.getD_eq_getElem?_getD, List.getElem?_set, List.length_set, hj, hi]
  · by_cases hki : k = i
    · subst hki
      simp [hswap, List.getD_eq_getElem?_getD, List.getElem?_set, List.length_set, hj, hi,
        hkj, Ne.symm hkj]
    · simp [hswap, List.getD_eq_getElem?_getD, List.getElem?_set, hkj, hki,
        Ne.symm hkj, Ne.symm hki]

/-- Every entry of a swapped list was an entry of the original. -/
theorem mem_hswap (l : List PriorityEntry) (i j : ℕ) (a : PriorityEntry)
    (hi : i < l.length) (hj : j < l.length) (ha : a ∈ hswap l i j) : a ∈ l := by
  unfold hswap at ha
  rcases List.mem_or_eq_of_mem_set ha with ha' | rfl
  · rcases List.mem_or_eq_of_mem_set ha' with ha'' | rfl
    · exact ha''
    · rw [List.getD_eq_getElem l dEntry hj]
      exact List.getElem_mem hj
  · rw [List.getD_eq_getElem l dEntry hi]
    exact List.getElem_mem hi

end MaxHeap

namespace MaxHeap

/-- `bubbleUp` preserves the length. -/
theorem length_bubbleUpGo : ∀ (fuel : ℕ) (l : List PriorityEntry) (i : ℕ),
    (bubbleUpGo fuel l i).length = l.length := by
  intro fuel
  induction fuel with
  | zero => intro l i; rfl
  | succ f ih =>
    intro l i
    by_cases h0 : i = 0
    · simp [bubbleUpGo, h0]
    · simp only [bubbleUpGo, h0, if_false]
      by_cases hcmp : compareEntries (l.getD i dEntry) (l.getD ((i - 1) / 2) dEntry) ≤ 0
      · rw [if_pos hcmp]
      · rw [if_neg hcmp, ih, length_hswap]

/-- `bubbleUp` only rearranges entries. -/
theorem mem_bubbleUpGo : ∀ (fuel : ℕ) (l : List PriorityEntry) (i : ℕ), i < l.length →
    ∀ a ∈ bubbleUpGo fuel l i, a ∈ l := by
  intro fuel
  induction fuel with
  | zero => intro l i _ a ha; exact ha
  | succ f ih =>
    intro l i hi a ha
    by_cases h0 : i = 0
    · rw [bubbleUpGo, if_pos h0] at ha
      exact ha
    · rw [bubbleUpGo] at ha
      rw [if_neg h0] at ha
      by_cases hcmp : compareEntries (l.getD i dEntry) (l.getD ((i - 1) / 2) dEntry) ≤ 0
      · rw [if_pos hcmp] at ha
        exact ha
      · rw [if_neg hcmp] at ha
        have hpar : (i - 1) / 2 < l.length := by
          have : (i - 1) / 2 ≤ i - 1 := Nat.div_le_self _ _
          omega
        have := ih (hswap l i ((i - 1) / 2)) ((i - 1) / 2)
          (by rw [length_hswap]; exact hpar) a ha
        exact mem_hswap l i ((i - 1) / 2) a hi hpar this

/-- `bubbleDown` preserves the length. -/
theorem length_bubbleDownGo : ∀ (fuel : ℕ) (l : List PriorityEntry) (i : ℕ),
    (bubbleDownGo fuel l i).length = l.length := by
  intro fuel
  induction fuel with
  | zero => intro l i; rfl
  | succ f ih =>
    intro l i
    rw [bubbleDownGo]
    split_ifs
    all_goals first
    | rfl
    | rw [ih, length_hswap]

/-- `bubbleDown` only rearranges entries. -/
theorem mem_bubbleDownGo : ∀ (fuel : ℕ) (l : List PriorityEntry) (i : ℕ),
    ∀ a ∈ bubbleDownGo fuel l i, a ∈ l := by
  intro fuel
  induction fuel with
  | zero => intro l i a ha; exact ha
  | succ f ih =>
    intro l i a ha
    rw [bubbleDownGo] at ha
    set left := 2 * i + 1 with hleft
    set right := 2 * i + 2 with hright
    set largest₁ := if left < l.length ∧
        0 < compareEntries (l.getD left dEntry) (l.getD i dEntry) then left else i with hl1
    set largest₂ := if right < l.length ∧
        0 < compareEntries (l.getD right dEntry) (l.getD largest₁ dEntry) then right
      else largest₁ with hl2
    by_cases heq : largest₂ = i
    · rw [if_pos heq] at ha
      exact ha
    · rw [if_neg heq] at ha
      have hbig : i < largest₂ ∧ largest₂ < l.length := by
        rw [hl2]
        by_cases hr : right < l.length ∧
            0 < compareEntries (l.getD right dEntry) (l.getD largest₁ dEntry)
        · rw [if_pos hr]
          omega
        · rw [if_neg hr]
          rw [hl2, if_neg hr] at heq
          rw [hl1]
          rw [hl1] at heq
          by_cases hlf : left < l.length ∧
              0 < compareEntries (l.getD left dEntry) (l.getD i dEntry)
          · rw [if_pos hlf]
            omega
          · rw [if_neg hlf] at heq
            exact absurd rfl heq
      have := ih (hswap l i largest₂) largest₂ a ha
      exact mem_hswap l i largest₂ a (by omega) (by omega) this

/-- `push` adds exactly one entry. -/
theorem length_push (l : List PriorityEntry) (e : PriorityEntry) :
    (push l e).length = l.length + 1 := by
  unfold push bubbleUp
  rw [length_bubbleUpGo]
  simp

/-- Every entry of `push l e` is an old entry or the new one. -/
theorem mem_push (l : List PriorityEntry) (e : PriorityEntry) (a : PriorityEntry)
    (ha : a ∈ push l e) : a ∈ l ∨ a = e := by
  unfold push bubbleUp at ha
  have := mem_bubbleUpGo l.length (l ++ [e]) l.length (by simp) a ha
  rcases List.mem_append.mp this with h | h
  · exact Or.inl h
  · simp only [List.mem_singleton] at h
    exact Or.inr h

/-- Unfolding equation for `pop` on a non-empty list. -/
theorem pop_cons (x : PriorityEntry) (xs : List PriorityEntry) :
    pop (x :: xs)
      = if (x :: xs).dropLast.isEmpty = true then some (x, (x :: xs).dropLast)
        else some (x, bubbleDown
          ((x :: xs).dropLast.set 0 ((x :: xs).getLastD dEntry)) 0) := rfl

/-- A non-empty heap pops its root; the rest is one entry shorter and only
rearranges old entries. -/
theorem pop_some (l : List PriorityEntry) (hne : l ≠ []) :
    ∃ top rest, pop l = some (top, rest) ∧ top = l.getD 0 dEntry ∧
      rest.length + 1 = l.length ∧ ∀ a ∈ rest, a ∈ l := by
  cases l with
  | nil => exact absurd rfl hne
  | cons x xs =>
    rw [pop_cons]
    by_cases hrest : (x :: xs).dropLast.isEmpty = true
    · rw [if_pos hrest]
      refine ⟨x, (x :: xs).dropLast, rfl, rfl, ?_, ?_⟩
      · rw [List.isEmpty_iff] at hrest
        have hlen := congrArg List.length hrest
        rw [List.length_dropLast] at hlen
        simp only [List.length_cons, List.length_nil] at hlen
        rw [hrest]
        simp only [List.length_nil, List.length_cons]
        omega
      · intro a ha
        exact List.dropLast_subset _ ha
    · rw [if_neg hrest]
      refine ⟨x, _, rfl, rfl, ?_, ?_⟩
      · unfold bubbleDown
        rw [length_bubbleDownGo, List.length_set, List.length_dropLast]
        have : xs.length + 1 ≥ 1 := by omega
        simp only [List.length_cons]
        have hpos : (x :: xs).dropLast.length ≠ 0 := by
          intro hcon
          rw [List.isEmpty_iff] at hrest
          exact hrest (List.eq_nil_of_length_eq_zero hcon)
        rw [List.length_dropLast] at hpos
        simp only [List.length_cons] at hpos
        omega
      · intro a ha
        unfold bubbleDown at ha
        have ha1 := mem_bubbleDownGo _ _ _ a ha
        rcases List.mem_or_eq_of_mem_set ha1 with ha2 | rfl
        · exact List.dropLast_subset _ ha2
        · rw [List.getLastD_cons]
          exact List.getLastD_mem_cons xs x

end MaxHeap

namespace MaxHeap

/-- In a heap, the root dominates every entry. -/
theorem isHeap_le_root (l : List PriorityEntry) (hH : IsHeap l) :
    ∀ i, i < l.length → entryLe (l.getD i dEntry) (l.getD 0 dEntry) := by
  intro i
  induction i using Nat.strong_induction_on with
  | _ i ih =>
    intro hi
    rcases Nat.eq_zero_or_pos i with rfl | hpos
    · exact entryLe_refl _
    · have hpar : (i - 1) / 2 < i := by
        have := Nat.div_le_self (i - 1) 2
        omega
      exact entryLe_trans _ _ _ (hH i hi hpos) (ih ((i - 1) / 2) hpar (by omega))

/-- Sift-up correctness: if the list is a heap except possibly on the edge
from `i` to its parent, and `i`'s children (if any) already fit below `i`'s
parent, then `bubbleUpGo` restores the heap shape.  Fuel `i` suffices as
the index strictly decreases. -/
theorem bubbleUpGo_isHeap : ∀ (fuel : ℕ) (l : List PriorityEntry) (i : ℕ),
    i ≤ fuel → i < l.length →
    (∀ j, j < l.length → 0 < j → j ≠ i →
      entryLe (l.getD j dEntry) (l.getD ((j - 1) / 2) dEntry)) →
    (0 < i → ∀ j, j < l.length → (j - 1) / 2 = i →
      entryLe (l.getD j dEntry) (l.getD ((i - 1) / 2) dEntry)) →
    IsHeap (bubbleUpGo fuel l i) := by
  intro fuel
  induction fuel with
  | zero =>
    intro l i hfuel hi hInv1 hInv2
    have h0 : i = 0 := by omega
    intro j hj hjpos
    exact hInv1 j (by simpa using hj) hjpos (by omega)
  | succ f ih =>
    intro l i hfuel hi hInv1 hInv2
    by_cases h0 : i = 0
    · rw [bubbleUpGo, if_pos h0]
      intro j hj hjpos
      exact hInv1 j hj hjpos (by omega)
    · rw [bubbleUpGo, if_neg h0]
      by_cases hcmp : compareEntries (l.getD i dEntry) (l.getD ((i - 1) / 2) dEntry) ≤ 0
      · rw [if_pos hcmp]
        intro j hj hjpos
        by_cases hji : j = i
        · subst hji
          exact (compareEntries_nonpos _ _).mp hcmp
        · exact hInv1 j hj hjpos hji
      · rw [if_neg hcmp]
        set p := (i - 1) / 2 with hp
        have hplt : p < i := by
          rw [hp]
          have := Nat.div_le_self (i - 1) 2
          omega
        have hplen : p < l.length := by omega
        have hle : entryLe (l.getD p dEntry) (l.getD i dEntry) := by
          rcases entryLe_total (l.getD i dEntry) (l.getD p dEntry) with h | h
          · exact absurd ((compareEntries_nonpos _ _).mpr h) hcmp
          · exact h
        have hget := fun k => getD_hswap l i p k hi hplen
        apply ih (hswap l i p) p (by omega) (by rw [length_hswap]; omega)
        · -- heap everywhere except possibly at p
          intro j hj hjpos hjp
          rw [length_hswap] at hj
          by_cases hji : j = i
          · subst hji
            rw [hget j, if_neg (by omega : ¬ j = p), if_pos rfl]
            have hpar_eq : (j - 1) / 2 = p := hp.symm
            rw [hpar_eq, hget p, if_pos rfl]
            exact hle
          · by_cases hpj_i : (j - 1) / 2 = i
            · -- j is a child of i: its new parent entry is the old l[p]
              rw [hget j, if_neg (by omega : ¬ j = p), if_neg hji, hpj_i,
                hget i, if_neg (by omega : ¬ i = p), if_pos rfl]
              exact hInv2 (by omega) j hj hpj_i
            · by_cases hpj_p : (j - 1) / 2 = p
              · -- j is a child of p other than i: new parent entry is l[i]
                rw [hget j, if_neg (by omega : ¬ j = p), if_neg hji, hpj_p,
                  hget p, if_pos rfl]
                have h1 := hInv1 j hj hjpos hji
                rw [hpj_p] at h1
                exact entryLe_trans _ _ _ h1 hle
              · rw [hget j, if_neg (by omega : ¬ j = p), if_neg hji,
                  hget ((j - 1) / 2), if_neg hpj_p, if_neg hpj_i]
                exact hInv1 j hj hjpos hji
        · -- children of p fit below p's parent
          intro hppos j hj hpj
          rw [length_hswap] at hj
          have hgp_ne_i : (p - 1) / 2 ≠ i := by
            have := Nat.div_le_self (p - 1) 2
            omega
          have hgp_ne_p : (p - 1) / 2 ≠ p := by
            have := Nat.div_le_self (p - 1) 2
            omega
          rw [hget ((p - 1) / 2), if_neg hgp_ne_p, if_neg hgp_ne_i]
          by_cases hji : j = i
          · subst hji
            rw [hget j, if_neg (by omega : ¬ j = p), if_pos rfl]
            exact hInv1 p hplen hppos (by omega)
          · have hjp : j ≠ p := by
              have := Nat.div_le_self (j - 1) 2
              omega
            rw [hget j, if_neg hjp, if_neg hji]
            have hjpos : 0 < j := by omega
            have h1 := hInv1 j hj hjpos hji
            rw [hpj] at h1
            exact entryLe_trans _ _ _ h1 (hInv1 p hplen hppos (by omega))

/-- `push` preserves the heap invariant. -/
theorem push_isHeap (l : List PriorityEntry) (e : PriorityEntry) (hH : IsHeap l) :
    IsHeap (push l e) := by
  unfold push bubbleUp
  apply bubbleUpGo_isHeap l.length (l ++ [e]) l.length (le_refl _) (by simp)
  · intro j hj hjpos hji
    simp only [List.length_append, List.length_singleton] at hj
    have hjlt : j < l.length := by omega
    have hparlt : (j - 1) / 2 < l.length := by
      have := Nat.div_le_self (j - 1) 2
      omega
    rw [List.getD_append l [e] dEntry j hjlt, List.getD_append l [e] dEntry _ hparlt]
    exact hH j hjlt hjpos
  · intro hpos j hj hpj
    simp only [List.length_append, List.length_singleton] at hj
    have := Nat.div_le_self (j - 1) 2
    omega

end MaxHeap

namespace MaxHeap

/-- One sift-down swap re-establishes the sift-down invariants one level
lower: after swapping the hole `i` with its dominating child `c`, the list
is a heap except possibly below `c`, and `c`'s children still fit below
its parent. -/
theorem swapDown_invariants (l : List PriorityEntry) (i c : ℕ)
    (hclen : c < l.length) (hchild : (c - 1) / 2 = i) (hgt : i < c)
    (hic : entryLe (l.getD i dEntry) (l.getD c dEntry))
    (hsib : ∀ s, s < l.length → 0 < s → (s - 1) / 2 = i → s ≠ c →
      entryLe (l.getD s dEntry) (l.getD c dEntry))
    (hInv1 : ∀ j, j < l.length → 0 < j → (j - 1) / 2 ≠ i →
      entryLe (l.getD j dEntry) (l.getD ((j - 1) / 2) dEntry))
    (hInv2 : 0 < i → ∀ j, j < l.length → (j - 1) / 2 = i →
      entryLe (l.getD j dEntry) (l.getD ((i - 1) / 2) dEntry)) :
    (∀ j, j < (hswap l i c).length → 0 < j → (j - 1) / 2 ≠ c →
      entryLe ((hswap l i c).getD j dEntry) ((hswap l i c).getD ((j - 1) / 2) dEntry)) ∧
    (0 < c → ∀ j, j < (hswap l i c).length → (j - 1) / 2 = c →
      entryLe ((hswap l i c).getD j dEntry) ((hswap l i c).getD ((c - 1) / 2) dEntry)) := by
  have hilen : i < l.length := by omega
  have hget := fun k => getD_hswap l i c k hilen hclen
  constructor
  · intro j hj hjpos hjc
    rw [length_hswap] at hj
    by_cases hji : j = i
    · subst hji
      have hgp_ne_c : (j - 1) / 2 ≠ c := by
        have := Nat.div_le_self (j - 1) 2
        omega
      have hgp_ne_i : (j - 1) / 2 ≠ j := by
        have := Nat.div_le_self (j - 1) 2
        omega
      rw [hget j, if_neg (by omega : ¬ j = c), if_pos rfl,
        hget ((j - 1) / 2), if_neg hgp_ne_c, if_neg hgp_ne_i]
      exact hInv2 hjpos c hclen hchild
    · by_cases hjc2 : j = c
      · have hpar : (j - 1) / 2 = i := by rw [hjc2]; exact hchild
        rw [hget j, if_pos hjc2, hpar, hget i, if_neg (by omega : ¬ i = c), if_pos rfl]
        exact hic
      · by_cases hpji : (j - 1) / 2 = i
        · rw [hget j, if_neg hjc2, if_neg hji, hpji,
            hget i, if_neg (by omega : ¬ i = c), if_pos rfl]
          exact hsib j hj hjpos hpji hjc2
        · rw [hget j, if_neg hjc2, if_neg hji,
            hget ((j - 1) / 2), if_neg hjc, if_neg hpji]
          exact hInv1 j hj hjpos hpji
  · intro hcpos j hj hpjc
    rw [length_hswap] at hj
    have hjgt : c < j := by omega
    rw [hchild, hget j, if_neg (by omega : ¬ j = c), if_neg (by omega : ¬ j = i),
      hget i, if_neg (by omega : ¬ i = c), if_pos rfl]
    have h1 := hInv1 j hj (by omega) (by omega)
    rw [hpjc] at h1
    exact h1

/-- Sift-down correctness: if the list is a heap except possibly on the
edges from `i` to its children, and those children fit below `i`'s parent,
then `bubbleDownGo` restores the heap shape.  Fuel `l.length - i`
suffices as the index strictly increases while staying in range. -/
theorem bubbleDownGo_isHeap : ∀ (fuel : ℕ) (l : List PriorityEntry) (i : ℕ),
    l.length - i ≤ fuel →
    (∀ j, j < l.length → 0 < j → (j - 1) / 2 ≠ i →
      entryLe (l.getD j dEntry) (l.getD ((j - 1) / 2) dEntry)) →
    (0 < i → ∀ j, j < l.length → (j - 1) / 2 = i →
      entryLe (l.getD j dEntry) (l.getD ((i - 1) / 2) dEntry)) →
    IsHeap (bubbleDownGo fuel l i) := by
  intro fuel
  induction fuel with
  | zero =>
    intro l i hfuel hInv1 hInv2
    intro j hj hjpos
    simp only [bubbleDownGo] at hj ⊢
    apply hInv1 j hj hjpos
    have := Nat.div_le_self (j - 1) 2
    omega
  | succ f ih =>
    intro l i hfuel hInv1 hInv2
    rw [bubbleDownGo]
    by_cases hcl : 2 * i + 1 < l.length ∧
        0 < compareEntries (l.getD (2 * i + 1) dEntry) (l.getD i dEntry)
    · rw [if_pos hcl]
      have hleft_i : entryLe (l.getD i dEntry) (l.getD (2 * i + 1) dEntry) := by
        rcases entryLe_total (l.getD i dEntry) (l.getD (2 * i + 1) dEntry) with h | h
        · exact h
        · exact absurd hcl.2 (by rw [compareEntries_pos]; exact fun hcon => hcon h)
      by_cases hcr : 2 * i + 2 < l.length ∧
          0 < compareEntries (l.getD (2 * i + 2) dEntry) (l.getD (2 * i + 1) dEntry)
      · rw [if_pos hcr, if_neg (by omega : ¬ 2 * i + 2 = i)]
        have hrl : entryLe (l.getD (2 * i + 1) dEntry) (l.getD (2 * i + 2) dEntry) := by
          rcases entryLe_total (l.getD (2 * i + 1) dEntry) (l.getD (2 * i + 2) dEntry) with h | h
          · exact h
          · exact absurd hcr.2 (by rw [compareEntries_pos]; exact fun hcon => hcon h)
        obtain ⟨hI1, hI2⟩ := swapDown_invariants l i (2 * i + 2) hcr.1 (by omega) (by omega)
          (entryLe_trans _ _ _ hleft_i hrl)
          (by
            intro s hs hspos hps hsne
            have : s = 2 * i + 1 := by omega
            subst this
            exact hrl)
          hInv1 hInv2
        have hfuel2 : l.length - (2 * i + 2) ≤ f := by omega
        exact ih (hswap l i (2 * i + 2)) (2 * i + 2)
          (by rw [length_hswap]; exact hfuel2) hI1 hI2
      · rw [if_neg hcr, if_neg (by omega : ¬ 2 * i + 1 = i)]
        obtain ⟨hI1, hI2⟩ := swapDown_invariants l i (2 * i + 1) hcl.1 (by omega) (by omega)
          hleft_i
          (by
            intro s hs hspos hps hsne
            have : s = 2 * i + 2 := by omega
            subst this
            have hcmp : compareEntries (l.getD (2 * i + 2) dEntry)
                (l.getD (2 * i + 1) dEntry) ≤ 0 := by
              by_contra hcon
              exact hcr ⟨hs, by linarith⟩
            exact (compareEntries_nonpos _ _).mp hcmp)
          hInv1 hInv2
        have hfuel2 : l.length - (2 * i + 1) ≤ f := by omega
        exact ih (hswap l i (2 * i + 1)) (2 * i + 1)
          (by rw [length_hswap]; exact hfuel2) hI1 hI2
    · rw [if_neg hcl]
      by_cases hcr : 2 * i + 2 < l.length ∧
          0 < compareEntries (l.getD (2 * i + 2) dEntry) (l.getD i dEntry)
      · rw [if_pos hcr, if_neg (by omega : ¬ 2 * i + 2 = i)]
        have hri : entryLe (l.getD i dEntry) (l.getD (2 * i + 2) dEntry) := by
          rcases entryLe_total (l.getD i dEntry) (l.getD (2 * i + 2) dEntry) with h | h
          · exact h
          · exact absurd hcr.2 (by rw [compareEntries_pos]; exact fun hcon => hcon h)
        obtain ⟨hI1, hI2⟩ := swapDown_invariants l i (2 * i + 2) hcr.1 (by omega) (by omega)
          hri
          (by
            intro s hs hspos hps hsne
            have : s = 2 * i + 1 := by omega
            subst this
            have hcmp : compareEntries (l.getD (2 * i + 1) dEntry) (l.getD i dEntry) ≤ 0 := by
              by_contra hcon
              exact hcl ⟨hs, by linarith⟩
            exact entryLe_trans _ _ _ ((compareEntries_nonpos _ _).mp hcmp) hri)
          hInv1 hInv2
        have hfuel2 : l.length - (2 * i + 2) ≤ f := by omega
        exact ih (hswap l i (2 * i + 2)) (2 * i + 2)
          (by rw [length_hswap]; exact hfuel2) hI1 hI2
      · rw [if_neg hcr, if_pos rfl]
        intro j hj hjpos
        by_cases hpji : (j - 1) / 2 = i
        · have : j = 2 * i + 1 ∨ j = 2 * i + 2 := by omega
          rcases this with rfl | rfl
          · rw [hpji]
            have hcmp : compareEntries (l.getD (2 * i + 1) dEntry) (l.getD i dEntry) ≤ 0 := by
              by_contra hcon
              exact hcl ⟨hj, by linarith⟩
            exact (compareEntries_nonpos _ _).mp hcmp
          · rw [hpji]
            have hcmp : compareEntries (l.getD (2 * i + 2) dEntry) (l.getD i dEntry) ≤ 0 := by
              by_contra hcon
              exact hcr ⟨hj, by linarith⟩
            exact (compareEntries_nonpos _ _).mp hcmp
        · exact hInv1 j hj hjpos hpji

end MaxHeap

namespace MaxHeap

/-- Reading a list written at index 0 away from index 0. -/
theorem getD_set_zero_ne (l : List PriorityEntry) (v : PriorityEntry) (k : ℕ) (hk : k ≠ 0) :
    (l.set 0 v).getD k dEntry = l.getD k dEntry := by
  rw [List.getD_eq_getElem?_getD, List.getElem?_set,
    if_neg (fun hcon => hk hcon.symm), ← List.getD_eq_getElem?_getD]

/-- `dropLast` does not disturb the surviving positions. -/
theorem getD_dropLast (l : List PriorityEntry) (k : ℕ) (hk : k < l.length - 1) :
    l.dropLast.getD k dEntry = l.getD k dEntry := by
  rw [List.dropLast_eq_take, List.getD_eq_getElem?_getD, List.getElem?_take,
    if_pos hk, ← List.getD_eq_getElem?_getD]

/-- `pop` preserves the heap invariant on the remaining entries. -/
theorem pop_isHeap (l : List PriorityEntry) (top : PriorityEntry) (rest : List PriorityEntry)
    (hH : IsHeap l) (hpop : pop l = some (top, rest)) : IsHeap rest := by
  cases l with
  | nil => cases hpop
  | cons x xs =>
    rw [pop_cons] at hpop
    by_cases hrest : (x :: xs).dropLast.isEmpty = true
    · rw [if_pos hrest] at hpop
      injection hpop with hpair
      have hr : rest = (x :: xs).dropLast := (congrArg Prod.snd hpair).symm
      rw [List.isEmpty_iff] at hrest
      rw [hr, hrest]
      intro j hj _
      simp at hj
    · rw [if_neg hrest] at hpop
      injection hpop with hpair
      have hr : rest = bubbleDown
          ((x :: xs).dropLast.set 0 ((x :: xs).getLastD dEntry)) 0 :=
        (congrArg Prod.snd hpair).symm
      rw [hr]
      unfold bubbleDown
      apply bubbleDownGo_isHeap _ _ 0 (le_refl _)
      · intro j hj hjpos hpj
        rw [List.length_set, List.length_dropLast] at hj
        have hparpos : 0 < (j - 1) / 2 := by omega
        have hparlt : (j - 1) / 2 < (x :: xs).length - 1 := by
          have := Nat.div_le_self (j - 1) 2
          omega
        rw [getD_set_zero_ne _ _ j (by omega), getD_set_zero_ne _ _ _ (by omega),
          getD_dropLast _ j hj, getD_dropLast _ _ hparlt]
        exact hH j (by simp at hj ⊢; omega) hjpos
      · intro hcon
        omega

/-- The popped entry dominates every entry of the heap. -/
theorem pop_max (l : List PriorityEntry) (top : PriorityEntry) (rest : List PriorityEntry)
    (hH : IsHeap l) (hpop : pop l = some (top, rest)) :
    ∀ a ∈ l, entryLe a top := by
  have htop : top = l.getD 0 dEntry := by
    cases l with
    | nil => cases hpop
    | cons x xs =>
      rw [pop_cons] at hpop
      by_cases hrest : (x :: xs).dropLast.isEmpty = true
      · rw [if_pos hrest] at hpop
        injection hpop with hpair
        exact (congrArg Prod.fst hpair).symm
      · rw [if_neg hrest] at hpop
        injection hpop with hpair
        exact (congrArg Prod.fst hpair).symm
  intro a ha
  rcases List.mem_iff_getElem.mp ha with ⟨n, hn, rfl⟩
  rw [htop, ← List.getD_eq_getElem l dEntry hn]
  exact isHeap_le_root l hH n hn

end MaxHeap

/-- A heap built by pushing entries into an existing heap keeps the heap
shape; in particular `apportion`'s initial heap (built from the empty
list) satisfies `IsHeap`. -/
theorem foldl_push_isHeap (g : String → PriorityEntry) (ks : List String) :
    ∀ h0, MaxHeap.IsHeap h0 →
      MaxHeap.IsHeap (ks.foldl (fun h k => MaxHeap.push h (g k)) h0) := by
  induction ks with
  | nil => intro h0 hH; exact hH
  | cons k rest ih =>
    intro h0 hH
    exact ih _ (MaxHeap.push_isHeap h0 (g k) hH)

/-- The award loop of `apportion` preserves the heap shape of its queue:
each iteration pops (which re-heapifies the remainder) and pushes the
reprioritised state back. -/
theorem apportionGo_isHeap (prio : ℚ → ℤ → ℚ) (popFn : String → ℚ) :
    ∀ (n : ℕ) (h : List PriorityEntry) (seats : String → ℤ), MaxHeap.IsHeap h →
      MaxHeap.IsHeap (apportionGo prio popFn n h seats).1 := by
  intro n
  induction n with
  | zero => intro h seats hH; exact hH
  | succ n ih =>
    intro h seats hH
    rcases hpop : MaxHeap.pop h with _ | tr
    · rw [apportionGo, hpop]
      exact hH
    · rw [apportionGo, hpop]
      exact ih _ _ (MaxHeap.push_isHeap _ _ (MaxHeap.pop_isHeap h tr.1 tr.2 hH hpop))

/-- C3 (amended): in `apportion`, whenever the highest priority is shared
— in particular when the two highest-priority states tie exactly — the
popped entry (the state awarded the next seat) carries the maximal
priority and a state code sorting no *later* than any tied contender: the
comparator `b.state.localeCompare(a.state)` favours the alphabetically
earlier code, not the later one as claimed. -/
theorem apportion_tie_awards_earlier_state (l : List PriorityEntry)
    (hH : MaxHeap.IsHeap l) (a b : PriorityEntry) (ha : a ∈ l) (hb : b ∈ l)
    (hmax : ∀ e ∈ l, e.priority ≤ a.priority) (heqp : b.priority = a.priority)
    (hne : a.state ≠ b.state) :
    ∃ top rest, MaxHeap.pop l = some (top, rest) ∧ top.priority = a.priority ∧
      codeLe top.state a.state = true ∧ codeLe top.state b.state = true := by
  obtain ⟨top, rest, hpop, htop, hlen, hsub⟩ :=
    MaxHeap.pop_some l (List.ne_nil_of_mem ha)
  have htopmem : top ∈ l := by
    rw [htop, List.getD_eq_getElem l dEntry (by
      have := List.length_pos.mpr (List.ne_nil_of_mem ha)
      omega)]
    exact List.getElem_mem _
  have hmaxle := MaxHeap.pop_max l top rest hH hpop
  have htp : top.priority = a.priority := by
    have h1 := hmaxle a ha
    have h2 := hmax top htopmem
    rcases h1 with h1 | ⟨h1, _⟩
    · exact absurd h1 (not_lt.mpr h2)
    · exact h1.symm
  refine ⟨top, rest, hpop, htp, ?_, ?_⟩
  · rcases hmaxle a ha with h1 | ⟨_, h1⟩
    · exact absurd h1 (not_lt.mpr (hmax top htopmem))
    · exact h1
  · rcases hmaxle b hb with h1 | ⟨_, h1⟩
    · rw [heqp, ← htp] at h1
      exact absurd h1 (lt_irrefl _)
    · exact h1

/-- Witness for C3's amended statement: a two-entry heap with an exact
priority tie between `AA` and `BB`; the pop returns the entry whose code
sorts earlier. -/
theorem apportion_tie_awards_earlier_state_witness :
    (MaxHeap.IsHeap [⟨"AA", 50⟩, ⟨"BB", 50⟩] ∧
      (⟨"AA", 50⟩ : PriorityEntry) ∈ [(⟨"AA", 50⟩ : PriorityEntry), ⟨"BB", 50⟩] ∧
      (⟨"BB", 50⟩ : PriorityEntry) ∈ [(⟨"AA", 50⟩ : PriorityEntry), ⟨"BB", 50⟩] ∧
      (∀ e ∈ [(⟨"AA", 50⟩ : PriorityEntry), ⟨"BB", 50⟩], e.priority ≤ (50 : ℚ)) ∧
      ("AA" : String) ≠ "BB") ∧
      ∃ top rest, MaxHeap.pop [(⟨"AA", 50⟩ : PriorityEntry), ⟨"BB", 50⟩] = some (top, rest) ∧
        top.priority = (50 : ℚ) ∧ codeLe top.state ("AA") = true ∧
        codeLe top.state ("BB") = true :=
  ⟨⟨by decide!, by decide!, by decide!, by decide!, by decide!⟩,
    apportion_tie_awards_earlier_state [⟨"AA", 50⟩, ⟨"BB", 50⟩] (by decide!)
      ⟨"AA", 50⟩ ⟨"BB", 50⟩ (by decide!) (by decide!) (by decide!) rfl (by decide!)⟩

/-- Counterexample to C3 as stated: two states `AA` and `BB` with equal
populations (hence exactly equal priorities at every seat count) and one
seat to award beyond the floor.  The claim predicts `BB` (the code sorting
later) receives the extra seat; the code gives it to `AA`. -/
theorem apportion_tie_later_cex :
    (Except.toOption (apportion computePrioritySq
        [(("AA" : String), (10 : ℚ)), (("BB" : String), (10 : ℚ))] 3)).map
      (fun f => (f ("AA"), f ("BB"))) = some (2, 1) := by
  decide!

/-- Updating a record at one of its (distinct) keys shifts the key sum by
the difference at that key. -/
theorem map_sum_update (keys : List String) (hnd : keys.Nodup) (f : String → ℤ)
    (k0 : String) (hk : k0 ∈ keys) (v : ℤ) :
    (keys.map (Function.update f k0 v)).sum = (keys.map f).sum + v - f k0 := by
  induction keys with
  | nil => cases hk
  | cons k rest ih =>
    rcases List.mem_cons.mp hk with rfl | hmem
    · have hnotin : k0 ∉ rest := (List.nodup_cons.mp hnd).1
      simp only [List.map_cons, List.sum_cons, Function.update_same]
      have hrest : rest.map (Function.update f k0 v) = rest.map f := by
        apply List.map_congr_left
        intro q hq
        apply Function.update_noteq
        intro hcon
        rw [hcon] at hq
        exact hnotin hq
      rw [hrest]
      ring
    · have hkne : k0 ≠ k := by
        intro hcon
        rw [hcon] at hmem
        exact (List.nodup_cons.mp hnd).1 hmem
      have hupd : Function.update f k0 v k = f k :=
        Function.update_noteq (fun hcon => hkne hcon.symm) _ _
      simp only [List.map_cons, List.sum_cons, hupd]
      rw [ih (List.nodup_cons.mp hnd).2 hmem]
      ring

/-- Pushing a batch of entries onto a heap grows it by the batch size. -/
theorem foldl_push_length (g : String → PriorityEntry) (ks : List String) :
    ∀ h0, (ks.foldl (fun h k => MaxHeap.push h (g k)) h0).length
      = h0.length + ks.length := by
  induction ks with
  | nil => intro h0; simp
  | cons k rest ih =>
    intro h0
    simp only [List.foldl_cons, ih, MaxHeap.length_push, List.length_cons]
    omega

/-- Pushing a batch of entries whose states come from `keys` onto a heap
whose states come from `keys` yields a heap whose states come from `keys`. -/
theorem foldl_push_states (keys : List String) (g : String → PriorityEntry)
    (ks : List String) (hg : ∀ k ∈ ks, (g k).state ∈ keys) :
    ∀ h0, (∀ e ∈ h0, e.state ∈ keys) →
      ∀ e ∈ ks.foldl (fun h k => MaxHeap.push h (g k)) h0, e.state ∈ keys := by
  induction ks with
  | nil => intro h0 hh e he; exact hh e he
  | cons k rest ih =>
    intro h0 hh e he
    refine ih (fun k' hk' => hg k' (List.mem_cons_of_mem k hk')) _ ?_ e he
    intro e' he'
    rcases MaxHeap.mem_push h0 (g k) e' he' with h | rfl
    · exact hh e' h
    · exact hg k (List.mem_cons_self k rest)

/-- Loop invariant of the seat-award loop: with a non-empty heap whose
states all belong to the (duplicate-free) key set, `n` iterations add
exactly `n` seats to the key sum and never take a seat away from any
state. -/
theorem apportionGo_invariant (prio : ℚ → ℤ → ℚ) (popFn : String → ℚ)
    (keys : List String) (hnd : keys.Nodup) :
    ∀ (n : ℕ) (h : List PriorityEntry) (seats : String → ℤ),
      h.length = keys.length → 0 < h.length → (∀ e ∈ h, e.state ∈ keys) →
      ((keys.map ((apportionGo prio popFn n h seats).2)).sum = (keys.map seats).sum + n) ∧
      (∀ k, seats k ≤ (apportionGo prio popFn n h seats).2 k) := by
  intro n
  induction n with
  | zero =>
    intro h seats _ _ _
    exact ⟨by simp [apportionGo], fun k => le_refl _⟩
  | succ n ih =>
    intro h seats hhlen hhpos hhmem
    obtain ⟨top, rest, hpop, htop, hlen, hsub⟩ :=
      MaxHeap.pop_some h (by intro hcon; rw [hcon] at hhpos; simp at hhpos)
    have htopmem : top ∈ h := by
      rw [htop, List.getD_eq_getElem h dEntry (by omega)]
      exact List.getElem_mem _
    have htopkey : top.state ∈ keys := hhmem top htopmem
    rw [apportionGo, hpop]
    simp only []
    set seats1 := Function.update seats top.state (seats top.state + 1) with hseats1
    set h1 := MaxHeap.push rest
      ⟨top.state, prio (popFn top.state) (seats1 top.state)⟩ with hh1
    have hh1len : h1.length = keys.length := by
      rw [hh1, MaxHeap.length_push]
      omega
    have hh1pos : 0 < h1.length := by
      rw [hh1, MaxHeap.length_push]
      omega
    have hh1mem : ∀ e ∈ h1, e.state ∈ keys := by
      intro e he
      rcases MaxHeap.mem_push rest _ e he with h' | rfl
      · exact hhmem e (hsub e h')
      · exact htopkey
    obtain ⟨ihsum, ihmono⟩ := ih h1 seats1 hh1len hh1pos hh1mem
    constructor
    · rw [ihsum, hseats1, map_sum_update keys hnd seats top.state htopkey]
      push_cast
      ring
    · intro k
      refine le_trans ?_ (ihmono k)
      rw [hseats1]
      by_cases hk : k = top.state
      · subst hk
        rw [Function.update_same]
        omega
      · rw [Function.update_noteq hk]

/-- C1 (amended): for every *non-empty* population mapping (with distinct
state keys) and every integer total at least the state count, `apportion`
returns an allocation whose values sum exactly to the total, with every
state keeping at least its initial seat.  (On the empty mapping the code
returns an empty allocation whose sum is 0, not the requested total — see
`apportion_empty_cex`.) -/
theorem apportion_sum_and_floor (prio : ℚ → ℤ → ℚ) (pops : List (String × ℚ))
    (totalSeats : ℤ) (hne : pops ≠ []) (hnd : (pops.map Prod.fst).Nodup)
    (htot : (pops.length : ℤ) ≤ totalSeats) :
    ∃ f, apportion prio pops totalSeats = Except.ok f ∧
      ((pops.map Prod.fst).map f).sum = totalSeats ∧
      ∀ k ∈ pops.map Prod.fst, 1 ≤ f k := by
  unfold apportion
  simp only []
  set keys := pops.map Prod.fst with hkeys
  set popFn : String → ℚ := fun s => ((pops.lookup s).getD 0) with hpopFn
  set seats0 : String → ℤ := keys.foldl (fun f k => Function.update f k 1) (fun _ => 0)
    with hseats0
  have hklen : keys.length = pops.length := by rw [hkeys, List.length_map]
  rw [if_neg (by omega : ¬ totalSeats - (keys.length : ℤ) < 0)]
  refine ⟨_, rfl, ?_, ?_⟩
  · have hkpos : 0 < keys.length := by
      rw [hklen]
      exact List.length_pos.mpr hne
    obtain ⟨hsum, _⟩ := apportionGo_invariant prio popFn keys hnd
      ((totalSeats - (keys.length : ℤ)).toNat)
      (keys.foldl (fun h k => MaxHeap.push h ⟨k, prio (popFn k) (seats0 k)⟩) [])
      seats0
      (by rw [foldl_push_length (fun k => ⟨k, prio (popFn k) (seats0 k)⟩)]; simp)
      (by rw [foldl_push_length (fun k => ⟨k, prio (popFn k) (seats0 k)⟩)]; simpa using hkpos)
      (foldl_push_states keys (fun k => ⟨k, prio (popFn k) (seats0 k)⟩) keys
        (fun k hk => hk) [] (by intro e he; cases he))
    rw [hsum]
    have hinit : ∀ k ∈ keys, seats0 k = 1 := by
      intro k hk
      rw [hseats0]
      exact foldl_update_value (fun _ => (1 : ℤ)) keys _ k hk
    have hconst : keys.map seats0 = keys.map (fun _ => (1 : ℤ)) :=
      List.map_congr_left hinit
    rw [hconst]
    have hone : (keys.map (fun _ => (1 : ℤ))).sum = (keys.length : ℤ) := by
      induction keys with
      | nil => simp
      | cons k rest ihk => simp [ihk]; ring
    rw [hone]
    have hto : (((totalSeats - (keys.length : ℤ)).toNat : ℤ))
        = totalSeats - (keys.length : ℤ) := Int.toNat_of_nonneg (by omega)
    omega
  · intro k hk
    have hkpos : 0 < keys.length := by
      rw [hklen]
      exact List.length_pos.mpr hne
    obtain ⟨_, hmono⟩ := apportionGo_invariant prio popFn keys hnd
      ((totalSeats - (keys.length : ℤ)).toNat)
      (keys.foldl (fun h k => MaxHeap.push h ⟨k, prio (popFn k) (seats0 k)⟩) [])
      seats0
      (by rw [foldl_push_length (fun k => ⟨k, prio (popFn k) (seats0 k)⟩)]; simp)
      (by rw [foldl_push_length (fun k => ⟨k, prio (popFn k) (seats0 k)⟩)]; simpa using hkpos)
      (foldl_push_states keys (fun k => ⟨k, prio (popFn k) (seats0 k)⟩) keys
        (fun k hk => hk) [] (by intro e he; cases he))
    have h1 : seats0 k = 1 := by
      rw [hseats0]
      exact foldl_update_value (fun _ => (1 : ℤ)) keys _ k hk
    calc (1 : ℤ) = seats0 k := h1.symm
    _ ≤ _ := hmono k

/-- Witness for C1's amended statement at a concrete two-state input. -/
theorem apportion_sum_and_floor_witness :
    (([(("AA" : String), (4 : ℚ)), (("BB" : String), (2 : ℚ))] :
        List (String × ℚ)) ≠ [] ∧
      (([(("AA" : String), (4 : ℚ)), (("BB" : String), (2 : ℚ))] :
        List (String × ℚ)).map Prod.fst).Nodup ∧
      ((([(("AA" : String), (4 : ℚ)), (("BB" : String), (2 : ℚ))] :
        List (String × ℚ)).length : ℤ)) ≤ 3) ∧
      ∃ f, apportion computePrioritySq
          [(("AA" : String), (4 : ℚ)), (("BB" : String), (2 : ℚ))] 3 = Except.ok f ∧
        ((([(("AA" : String), (4 : ℚ)), (("BB" : String), (2 : ℚ))] :
          List (String × ℚ)).map Prod.fst).map f).sum = 3 ∧
        ∀ k ∈ ([(("AA" : String), (4 : ℚ)), (("BB" : String), (2 : ℚ))] :
          List (String × ℚ)).map Prod.fst, 1 ≤ f k :=
  ⟨⟨by decide!, by decide!, by decide⟩,
    apportion_sum_and_floor computePrioritySq
      [(("AA" : String), (4 : ℚ)), (("BB" : String), (2 : ℚ))] 3
      (by decide!) (by decide!) (by decide)⟩

/-- Counterexample to C1 as stated: on the *empty* mapping with
`totalSeats = 5` the guard passes (`5 ≥ 0` states) and `apportion` returns
the empty allocation, whose values sum to 0, not 5. -/
theorem apportion_empty_cex :
    (Except.toOption (apportion computePrioritySq ([] : List (String × ℚ)) 5)).map
        (fun f => ((([] : List (String × ℚ)).map Prod.fst).map f).sum)
      = some 0 ∧ (0 : ℤ) ≠ 5 := by
  constructor
  · decide!
  · decide
